import Mathlib

set_option maxRecDepth 100000
set_option linter.unusedSectionVars false
set_option linter.unnecessarySimpa false
set_option linter.unreachableTactic false
set_option linter.unusedTactic false
set_option linter.unnecessarySeqFocus false

/-
Verification of the graph-rag traversal engine specification against a
shallow embedding of the repository sources.

Embedded components:
* `NodeTracker` and `Strategy.finalize_nodes`
  (packages/graph-retriever/src/graph_retriever/strategies/base.py)
* `Scored` strategy and its heap
  (packages/graph-retriever/src/graph_retriever/strategies/scored.py)
* the CPython `heapq` algorithms (`heappush`, `heappop`, `_siftdown`,
  `_siftup`) which both `Scored` implementations rely on
* `top_k` (packages/graph-retriever/src/graph_retriever/utils/top_k.py)
* the Astra adjacency query planner
  (packages/langchain-graph-retriever/src/langchain_graph_retriever/adapters/astra.py)
* `_InMemoryBase._equals_or_contains`
  (packages/langchain-graph-retriever/src/langchain_graph_retriever/vector_stores/in_memory.py)
* `Traversal` single-use guard
  (packages/langchain-graph-retriever/src/langchain_graph_retriever/_traversal.py)
* the langchain `Scored` strategy
  (packages/langchain-graph-retriever/src/langchain_graph_retriever/strategies/scored.py)

Python floats that only ever enter comparisons (scores) are modelled as `Int`;
Python sets of ids are modelled as duplicate-free lists; `set[Node]` frontier
insertion is modelled by list append (the code guards every insertion by a
visited-id check, so dedup never fires; this is proved below as
`run_nodup`).
-/

/-- Modelled from the spec: the `Node` value type
(`graph_retriever.types.Node`, absent from the sources; spec section 3).
Only the fields the verified components inspect are carried: `id` and
`depth`.  Equality of the Python class is by `id` only; the embedding keeps
ids distinct wherever that matters, which is proved rather than assumed. -/
structure Node where
  id : String
  depth : Nat
deriving DecidableEq, Repr, Inhabited


/-
CPython `heapq` model.  `heapq.heappush` / `heapq.heappop` operate on a
plain list using the element type's `__lt__`.  Both `Scored` strategies
compare elements through a single integer key:

* core `_ScoredNode.__lt__(self, other) = other.score < self.score`,
  i.e. python-lt a b ↔ key b < key a with `key = score`;
* langchain pushes `(score, node)` tuples whose comparison (for distinct
  scores) is `a[0] < b[0]`, i.e. python-lt a b ↔ key b < key a with
  `key p = -p.1`.

So the model is parameterised by `key : α → Int`, and python's `a < b`
is `hlt key a b = decide (key b < key a)`.
-/

namespace Heapq

variable {α : Type} [DecidableEq α] [Inhabited α]

/-- Comparison used by the heap: python `a < b` via `__lt__`. -/
def hlt (key : α → Int) (a b : α) : Bool := decide (key b < key a)

/-- CPython `heapq._siftdown(heap, startpos, pos)` with the moving item made
explicit (the entry value of `heap[pos]`). -/
def siftdownAux (key : α → Int) (heap : List α) (startpos pos : Nat)
    (newitem : α) : List α :=
  if _h : startpos < pos then
    if hlt key newitem (heap.getD ((pos - 1) / 2) default) then
      siftdownAux key (heap.set pos (heap.getD ((pos - 1) / 2) default))
        startpos ((pos - 1) / 2) newitem
    else
      heap.set pos newitem
  else
    heap.set pos newitem
termination_by pos
decreasing_by
  exact lt_of_le_of_lt (Nat.div_le_self _ _) (by omega)

/-- CPython `heapq.heappush(heap, item)`: append then sift down from the
last slot. -/
def heappush (key : α → Int) (heap : List α) (item : α) : List α :=
  siftdownAux key (heap ++ [item]) 0 heap.length item

/-- CPython `heapq._siftup(heap, pos)` (with `startpos = 0`, the only way
the pop path calls it): move the larger child up until a leaf position is
reached, then place `newitem` and sift it down. -/
def siftupAux (key : α → Int) (heap : List α) (pos : Nat) (newitem : α) :
    List α :=
  if _h : 2 * pos + 1 < heap.length then
    if _h2 : 2 * pos + 2 < heap.length ∧
        ¬ hlt key (heap.getD (2 * pos + 1) default)
          (heap.getD (2 * pos + 2) default) = true then
      siftupAux key (heap.set pos (heap.getD (2 * pos + 2) default))
        (2 * pos + 2) newitem
    else
      siftupAux key (heap.set pos (heap.getD (2 * pos + 1) default))
        (2 * pos + 1) newitem
  else
    siftdownAux key (heap.set pos newitem) 0 pos newitem
termination_by heap.length - pos
decreasing_by
  · simp only [List.length_set]; omega
  · simp only [List.length_set]; omega

/-- CPython `heapq.heappop(heap)`: pop the last element, move it to the
root and sift up; `none` on the empty heap (python raises `IndexError`). -/
def heappop (key : α → Int) (heap : List α) : Option (α × List α) :=
  if heap.isEmpty then none
  else
    let lastelt := heap.getD (heap.length - 1) default
    let rest := heap.dropLast
    if rest.isEmpty then some (lastelt, [])
    else
      some (rest.getD 0 default, siftupAux key (rest.set 0 lastelt) 0 lastelt)

/-- Pop repeatedly (at most `fuel` times) until the heap empties. -/
def drain (key : α → Int) (heap : List α) : Nat → List α
  | 0 => []
  | fuel + 1 =>
    match heappop key heap with
    | none => []
    | some (r, rest) => r :: drain key rest fuel

/-- Index `j` is a child slot of index `i` in the implicit binary tree. -/
def isChild (i j : Nat) : Prop := j = 2 * i + 1 ∨ j = 2 * i + 2

/-- The binary-heap invariant for the key order: every child's key is at
most its parent's key (a max-heap on `key`, matching the inverted
`__lt__`). -/
def IsHeap (key : α → Int) (heap : List α) : Prop :=
  ∀ i j, isChild i j → j < heap.length →
    key (heap.getD j default) ≤ key (heap.getD i default)

end Heapq


/-
NodeTracker (graph_retriever/strategies/base.py).  The python sets
`_visited_node_ids : set[str]` and `to_traverse : set[Node]` are modelled
as lists; every insertion into `to_traverse` is guarded by a check that
the id is not yet visited and is paired with the insertion of the id into
the visited set, so the list never holds two nodes with the same id
(proved as `run_tt_nodup` below), which makes the list length agree with
the python set size (python `Node` hashes and compares by id).
-/

/-- State of `NodeTracker.__init__`. -/
structure NodeTracker where
  select_k : Nat
  max_depth : Option Nat
  visited_node_ids : List String
  to_traverse : List Node
  selected : List Node
deriving DecidableEq, Repr

namespace NodeTracker

/-- Fresh tracker, as built by `Traversal` from the strategy config. -/
def init (select_k : Nat) (max_depth : Option Nat) : NodeTracker :=
  { select_k := select_k, max_depth := max_depth, visited_node_ids := [],
    to_traverse := [], selected := [] }

/-- Property `num_remaining`: `max(select_k - len(selected), 0)` (natural
subtraction is exactly the clamped difference). -/
def num_remaining (t : NodeTracker) : Nat :=
  t.select_k - t.selected.length

/-- Method `select`: `self.selected.extend(nodes)`. -/
def select (t : NodeTracker) (nodes : List Node) : NodeTracker :=
  { t with selected := t.selected ++ nodes }

/-- The test `self._max_depth is not None and node.depth >= self._max_depth`. -/
def depth_blocked (t : NodeTracker) (node : Node) : Bool :=
  match t.max_depth with
  | none => false
  | some d => node.depth ≥ d

/-- One iteration of the loop body of `traverse`. -/
def traverseStep (t : NodeTracker) (node : Node) : NodeTracker :=
  if node.id ∈ t.visited_node_ids then t
  else if t.depth_blocked node then t
  else { t with to_traverse := t.to_traverse ++ [node],
                visited_node_ids := t.visited_node_ids ++ [node.id] }

/-- Method `traverse`: fold the loop body, then return the new tracker and
`len(self.to_traverse)`. -/
def traverse (t : NodeTracker) (nodes : List Node) : NodeTracker × Nat :=
  let t2 := nodes.foldl traverseStep t
  (t2, t2.to_traverse.length)

/-- Method `select_and_traverse`: `self.select(nodes)` then
`self.traverse(nodes)`. -/
def select_and_traverse (t : NodeTracker) (nodes : List Node) :
    NodeTracker × Nat :=
  (t.select nodes).traverse nodes

/-- Method `_should_stop_traversal`. -/
def should_stop (t : NodeTracker) : Bool :=
  t.num_remaining == 0 || t.to_traverse.length == 0

end NodeTracker

/-- The tracker calls a strategy may make during `iteration`. -/
inductive TrackerOp where
  | select (nodes : List Node)
  | traverse (nodes : List Node)
  | select_and_traverse (nodes : List Node)
deriving Repr

/-- Apply one tracker call. -/
def applyOp (t : NodeTracker) : TrackerOp → NodeTracker
  | .select ns => t.select ns
  | .traverse ns => (t.traverse ns).1
  | .select_and_traverse ns => (t.select_and_traverse ns).1

/-- Run a sequence of tracker calls. -/
def runOps (t : NodeTracker) (ops : List TrackerOp) : NodeTracker :=
  ops.foldl applyOp t

/-- Frontier invariant: every scheduled node respects the depth cap, its id
is recorded as visited, and scheduled ids are pairwise distinct. -/
def TrackerInv (t : NodeTracker) : Prop :=
  (∀ n ∈ t.to_traverse,
    (∀ d, t.max_depth = some d → n.depth < d) ∧
      n.id ∈ t.visited_node_ids) ∧
  (t.to_traverse.map Node.id).Nodup

/-
Core `Scored` strategy (graph_retriever/strategies/scored.py).
`_ScoredNode` pairs the scorer's value with the node; its `__lt__` flips
the comparison so that python's min-heap pops the highest score.
-/

/-- The `_ScoredNode` wrapper of the core `Scored` strategy. -/
structure SNode where
  score : Int
  node : Node
deriving DecidableEq, Repr, Inhabited

namespace Scored

/-- Loop `for node in nodes: heapq.heappush(self._nodes, _ScoredNode(self.scorer(node), node))`. -/
def pushAll (scorer : Node → Int) (heap : List SNode) (nodes : List Node) :
    List SNode :=
  nodes.foldl (fun h n => Heapq.heappush SNode.score h ⟨scorer n, n⟩) heap

/-- Loop `for _x in range(limit): if not self._nodes: break;
node = heapq.heappop(self._nodes).node; tracker.select_and_traverse([node])`. -/
def popLoop (heap : List SNode) (tracker : NodeTracker) :
    Nat → List SNode × NodeTracker
  | 0 => (heap, tracker)
  | limit + 1 =>
    match Heapq.heappop SNode.score heap with
    | none => (heap, tracker)
    | some (top, rest) =>
      popLoop rest ((tracker.select_and_traverse [top.node]).1) limit

/-- The python limit computation
`limit = tracker.num_remaining; if self.per_iteration_limit and
self.per_iteration_limit < limit: limit = self.per_iteration_limit`
(note the truthiness test: a limit of `0` is falsy and therefore ignored). -/
def effLimit (per_iteration_limit : Option Nat) (num_remaining : Nat) : Nat :=
  match per_iteration_limit with
  | none => num_remaining
  | some p => if p ≠ 0 ∧ p < num_remaining then p else num_remaining

/-- Method `Scored.iteration`. -/
def iteration (scorer : Node → Int) (per_iteration_limit : Option Nat)
    (heap : List SNode) (nodes : List Node) (tracker : NodeTracker) :
    List SNode × NodeTracker :=
  let heap2 := pushAll scorer heap nodes
  popLoop heap2 tracker (effLimit per_iteration_limit tracker.num_remaining)

end Scored

/-
The langchain `Scored` strategy
(langchain-graph-retriever/strategies/scored.py).  `discover_nodes` pushes
plain `(score, node)` tuples; python orders tuples lexicographically, so
with pairwise-distinct scores the heap behaves as a min-heap on the score
(on a score tie python would fall through to comparing `Node`s).  A
min-heap on the score is the `Heapq` model instantiated with the negated
first component as the key.
-/

namespace LcScored

/-- Key giving python's tuple-on-distinct-scores order inside the `Heapq`
model: `hlt key a b = (key b < key a) = (a.1 < b.1)`. -/
def lcKey (p : Int × Node) : Int := -p.1

/-- Method `discover_nodes`: push `(self.scorer(node), node)` for each
node. -/
def discover_nodes (scorer : Node → Int) (heap : List (Int × Node))
    (nodes : List Node) : List (Int × Node) :=
  nodes.foldl (fun h n => Heapq.heappush lcKey h (scorer n, n)) heap

/-- Loop body of `select_nodes`. -/
def selectLoop (heap : List (Int × Node)) (acc : List Node) :
    Nat → List Node × List (Int × Node)
  | 0 => (acc, heap)
  | k + 1 =>
    match Heapq.heappop lcKey heap with
    | none => (acc, heap)
    | some (p, rest) => selectLoop rest (acc ++ [p.2]) k

/-- Method `select_nodes`: pop at most `min(limit, select_k)` nodes. -/
def select_nodes (heap : List (Int × Node)) (limit select_k : Nat) :
    List Node × List (Int × Node) :=
  selectLoop heap [] (min limit select_k)

end LcScored

/-
Finalization (both packages).
-/

/-- Core `Strategy.finalize_nodes`: `list(selected)[: self.select_k]`. -/
def finalize_nodes (select_k : Nat) (selected : List Node) : List Node :=
  selected.take select_k

/-- Langchain `Strategy.finalize_nodes`: returns `nodes` unchanged. -/
def lcFinalize_nodes (selected : List Node) : List Node :=
  selected

/-
`top_k` (graph_retriever/utils/top_k.py), on the path where every content
carries a score and `are_batches_sorted` is `False` (the default): flatten,
stable-sort descending by score (python `sorted(..., reverse=True)`),
deduplicate by id keeping the first occurrence, and stop as soon as `k`
results are collected.  Scores (python floats used only in comparisons)
are modelled as `Int`.
-/

/-- Content (`graph_retriever.content.Content`); only the fields this path
of `top_k` inspects are carried. -/
structure Content where
  id : String
  score : Int
deriving DecidableEq, Repr

namespace TopK

/-- Stable insertion for a non-increasing order: the new element is placed
before the first element whose score is `≤` its own, hence after all
earlier elements with the same score. -/
def insertDesc (c : Content) : List Content → List Content
  | [] => [c]
  | x :: xs => if x.score ≤ c.score then c :: x :: xs else x :: insertDesc c xs

/-- Stable descending sort by score (python `sorted(l, key=_score,
reverse=True)` is a stable descending sort). -/
def sortDesc (l : List Content) : List Content :=
  l.foldr insertDesc []

/-- The loop `for c in sorted_items: results.setdefault(c.id, c);
if len(results) >= k: break`, with the dict modelled as the
insertion-ordered list `acc`. -/
def dedupLoop (k : Nat) (acc : List Content) : List Content → List Content
  | [] => acc
  | c :: cs =>
    if acc.any (fun r => r.id == c.id) then
      if k ≤ acc.length then acc else dedupLoop k acc cs
    else
      if k ≤ (acc ++ [c]).length then acc ++ [c]
      else dedupLoop k (acc ++ [c]) cs

/-- `top_k(batches, k)` on the all-scored, unsorted-batches path. -/
def top_k (batches : List (List Content)) (k : Nat) : List Content :=
  dedupLoop k [] (sortDesc batches.flatten)

end TopK

/-
Astra adjacency query planner
(langchain-graph-retriever/adapters/astra.py): `_extract_queries`
partitions an edge set into per-field value groups, multi-field filters
and an id set; `_queries` renders each group in chunks of at most 100
values.  Metadata values are compared and grouped opaquely; they are
modelled as `Int`.  The python `set`s (per-field value sets and the id
set) are modelled as insertion-ordered duplicate-free lists.
-/

/-- Edges as consumed by the planner (`graph_retriever.edges`):
`MetadataEdge(fields)` and `IdEdge(id)`. -/
inductive Edge where
  | metadata (fields : List (String × Int))
  | idEdge (id : String)
deriving DecidableEq, Repr

namespace Astra

/-- Add to a python `set`, modelled as a duplicate-free list. -/
def addElem {β : Type} [DecidableEq β] (l : List β) (v : β) : List β :=
  if v ∈ l then l else l ++ [v]

/-- `single_metadata.setdefault(k, set()).add(v)` over an association
list. -/
def addSingle (sm : List (String × List Int)) (k : String) (v : Int) :
    List (String × List Int) :=
  match sm with
  | [] => [(k, [v])]
  | (k2, vs) :: rest =>
    if k2 = k then (k2, addElem vs v) :: rest
    else (k2, vs) :: addSingle rest k v

/-- Accumulator of `_extract_queries`. -/
structure ExtractState where
  single_metadata : List (String × List Int)
  multi_metadata : List (List (String × Int))
  ids : List String
deriving DecidableEq, Repr

/-- Body of the edge loop in `_extract_queries`. -/
def extractStep (st : ExtractState) : Edge → ExtractState
  | .metadata [(k, v)] =>
    { st with single_metadata := addSingle st.single_metadata k v }
  | .metadata fields =>
    { st with multi_metadata := st.multi_metadata ++ [fields] }
  | .idEdge i => { st with ids := addElem st.ids i }

/-- `_extract_queries(edges)`. -/
def extract_queries (edges : List Edge) : ExtractState :=
  edges.foldl extractStep ⟨[], [], []⟩

/-- `batched(l, n)` driven by explicit fuel so that it computes by
structural recursion; `chunks` below always passes enough fuel. -/
def chunksFuel {β : Type} (n : Nat) : Nat → List β → List (List β)
  | _, [] => []
  | 0, _ => []
  | fuel + 1, l => l.take n :: chunksFuel n fuel (l.drop n)

/-- `itertools.batched(l, n)` for `n ≥ 1` (the planner always uses
`n = 100`; python raises for `n < 1`). -/
def chunks {β : Type} (n : Nat) (l : List β) : List (List β) :=
  chunksFuel n l.length l

/-- Backend-agnostic query descriptors produced by `_queries` (the
conjunction with the user filter applies uniformly to every query and is
omitted). -/
inductive AstraQuery where
  | metadataEq (k : String) (v : Int)
  | metadataIn (k : String) (vs : List Int)
  | multi (filters : List (List (String × Int)))
  | idEq (i : String)
  | idIn (ids : List String)
deriving DecidableEq, Repr

/-- The `for k, v in single_metadata.items(): for v_batch in batched(v, 100)`
loop of `_queries`. -/
def queriesForField (k : String) (vs : List Int) : List AstraQuery :=
  (chunks 100 vs).map (fun b =>
    match b with
    | [v] => .metadataEq k v
    | b => .metadataIn k b)

/-- The `for filter_batch in batched(multi_metadata, 100)` loop. -/
def multiQueries (ms : List (List (String × Int))) : List AstraQuery :=
  (chunks 100 ms).map (fun b => .multi b)

/-- The `for id_batch in batched(ids, 100)` loop. -/
def idQueries (ids : List String) : List AstraQuery :=
  (chunks 100 ids).map (fun b =>
    match b with
    | [i] => .idEq i
    | b => .idIn b)

/-- All queries `_queries` yields for an extracted state. -/
def astra_queries (st : ExtractState) : List AstraQuery :=
  (st.single_metadata.map (fun kv => queriesForField kv.1 kv.2)).flatten ++
    multiQueries st.multi_metadata ++ idQueries st.ids

end Astra

/-
`_InMemoryBase._equals_or_contains`
(langchain-graph-retriever/vector_stores/in_memory.py).  Metadata values
follow the spec's metadata conventions: scalars (string / bool / int) or
collections of scalars.  Python strings are iterable but are explicitly
excluded by the `isinstance(actual, str | bytes)` test, so in this value
universe exactly the collections pass the iterability test.
-/

/-- Scalar metadata values. -/
inductive Scalar where
  | s (v : String)
  | i (v : Int)
  | b (v : Bool)
deriving DecidableEq, Repr

/-- Metadata values: a scalar or a collection of scalars. -/
inductive MValue where
  | scalar (v : Scalar)
  | coll (vs : List Scalar)
deriving DecidableEq, Repr

namespace InMemory

/-- `metadata.get(key, SENTINEL)` over an association-list dict. -/
def lookupAssoc (metadata : List (String × MValue)) (key : String) :
    Option MValue :=
  match metadata with
  | [] => none
  | (k, v) :: rest => if k = key then some v else lookupAssoc rest key

/-- The `isinstance(actual, Iterable) and not isinstance(actual, str | bytes)`
test on the modelled value universe. -/
def isCollection : MValue → Bool
  | .coll _ => true
  | .scalar _ => false

/-- Python `value in actual` for a collection (elementwise `==`). -/
def containsValue : MValue → MValue → Bool
  | .coll vs, value => vs.any (fun s => MValue.scalar s == value)
  | .scalar _, _ => false

/-- `_equals_or_contains(key, value, metadata)`, with
`supports = self.supports_searching_in_metadata_list_values()`
(`True` for `InMemoryList`, `False` for `InMemoryFlat`). -/
def equals_or_contains (supports : Bool) (key : String) (value : MValue)
    (metadata : List (String × MValue)) : Bool :=
  match lookupAssoc metadata key with
  | none => false
  | some actual =>
    if actual == value then true
    else if supports && isCollection actual && containsValue actual value then
      true
    else false

end InMemory

/-
`Traversal` single-use guard (langchain-graph-retriever/_traversal.py).
`_check_first_use` asserts the object was never used and flips the flag
before any other work; both entry points call it first.  The rest of each
entry point's body is abstracted as an outcome parameter (it can succeed
or raise without affecting the guard, which has already run).
-/

/-- The `Traversal` object's guard state (`self._used`). -/
structure Traversal where
  used : Bool
deriving DecidableEq, Repr

namespace TraversalGuard

/-- `_check_first_use`: `assert not self._used` then `self._used = True`
(the failed assertion leaves the state unchanged and raises). -/
def check_first_use (t : Traversal) : Traversal × Except String Unit :=
  if t.used then (t, .error "Traversals cannot be re-used.")
  else ({ t with used := true }, .ok ())

/-- `traverse()`: the guard, then the body with outcome `body`. -/
def traverse (t : Traversal) (body : Except String (List Node)) :
    Traversal × Except String (List Node) :=
  match check_first_use t with
  | (t2, .error e) => (t2, .error e)
  | (t2, .ok _) => (t2, body)

/-- `atraverse()`: same guard, then its own body. -/
def atraverse (t : Traversal) (body : Except String (List Node)) :
    Traversal × Except String (List Node) :=
  match check_first_use t with
  | (t2, .error e) => (t2, .error e)
  | (t2, .ok _) => (t2, body)

/-- The two public entry points. -/
inductive Entry where
  | tr
  | atr
deriving DecidableEq, Repr

/-- Dispatch an entry point. -/
def callEntry : Entry → Traversal → Except String (List Node) →
    Traversal × Except String (List Node)
  | .tr => traverse
  | .atr => atraverse

end TraversalGuard

/-- Heap operations of the core `Scored` strategy, for stating properties
of arbitrary push / pop sequences. -/
inductive HeapOp where
  | push (s : SNode)
  | pop
deriving DecidableEq, Repr

/-- Run a sequence of `heapq` operations on `_ScoredNode`s starting from
the empty heap (a failed pop on the empty heap leaves it unchanged). -/
def runHeapOps (ops : List HeapOp) : List SNode :=
  ops.foldl
    (fun h op =>
      match op with
      | .push s => Heapq.heappush SNode.score h s
      | .pop =>
        match Heapq.heappop SNode.score h with
        | none => h
        | some (_, rest) => rest)
    []


namespace Astra

/-- Number of ids a generated query constrains. -/
def idCount : AstraQuery → Nat
  | .idEq _ => 1
  | .idIn l => l.length
  | _ => 0

end Astra

/-- Edges used by the C7 counterexample: 101 single-field metadata edges
on the same field with distinct values. -/
def cexEdges : List Edge :=
  (List.range 101).map (fun i => Edge.metadata [("a", (i : Int))])

/-- Scorer used by the C10 theorems: distinct scores 1 and 2 keyed on the
node id. -/
def cexScorer (n : Node) : Int :=
  if n.id = "a" then 1 else 2

/-
Theorem development: library lemmas about lists, the heapq model, the
tracker, the strategies, the planner, and finally the claim theorems.
-/

namespace ListUtil

theorem getD_set_self {α : Type} (l : List α) (i : Nat) (x d : α)
    (h : i < l.length) : (l.set i x).getD i d = x := by
  simp [List.getD_eq_getElem?_getD, List.getElem?_set_self, h]

theorem getD_set_ne {α : Type} (l : List α) {i j : Nat} (x d : α)
    (h : i ≠ j) : (l.set i x).getD j d = l.getD j d := by
  simp [List.getD_eq_getElem?_getD, List.getElem?_set_ne, h]

theorem getD_append_left {α : Type} (l ys : List α) (j : Nat) (d : α)
    (h : j < l.length) : (l ++ ys).getD j d = l.getD j d := by
  simp [List.getD_eq_getElem?_getD, List.getElem?_append_left, h]

theorem getD_eq_getElem {α : Type} (l : List α) (j : Nat) (d : α)
    (h : j < l.length) : l.getD j d = l[j] := by
  simp [List.getD_eq_getElem?_getD, List.getElem?_eq_getElem h]

theorem getD_dropLast {α : Type} (l : List α) (j : Nat) (d : α)
    (h : j < l.length - 1) : (l.dropLast).getD j d = l.getD j d := by
  have hj : j < l.dropLast.length := by simp [List.length_dropLast]; omega
  have hj2 : j < l.length := by omega
  rw [getD_eq_getElem _ _ _ hj, getD_eq_getElem _ _ _ hj2]
  exact List.getElem_dropLast l j hj

theorem mem_of_getD {α : Type} (l : List α) (j : Nat) (d : α)
    (h : j < l.length) : l.getD j d ∈ l := by
  rw [getD_eq_getElem _ _ _ h]
  exact List.getElem_mem h

theorem set_append_len {α : Type} (l : List α) (x y : α) :
    (l ++ [x]).set l.length y = l ++ [y] := by
  induction l with
  | nil => rfl
  | cons a as ih => simp [List.set, ih]

theorem dropLast_append_getD {α : Type} [Inhabited α] (l : List α)
    (h : l ≠ []) :
    l.dropLast ++ [l.getD (l.length - 1) default] = l := by
  induction l with
  | nil => exact absurd rfl h
  | cons a as ih =>
    cases as with
    | nil => rfl
    | cons b bs =>
      have ih2 := ih (List.cons_ne_nil b bs)
      simp only [List.length_cons, Nat.add_sub_cancel] at ih2 ⊢
      simp only [List.dropLast_cons₂, List.cons_append, List.getD_cons_succ]
      rw [ih2]

theorem count_set_getD {α : Type} [DecidableEq α] [Inhabited α]
    (l : List α) (i : Nat) (x a : α) (h : i < l.length) :
    List.count a (l.set i x) =
      List.count a l - (if l.getD i default = a then 1 else 0) +
        (if x = a then 1 else 0) := by
  rw [List.count_set x a l i h, getD_eq_getElem _ _ _ h]
  simp [beq_iff_eq]

theorem one_le_count_of_getD {α : Type} [DecidableEq α] [Inhabited α]
    (l : List α) (i : Nat) (a : α) (h : i < l.length)
    (he : l.getD i default = a) : 1 ≤ List.count a l := by
  have : a ∈ l := he ▸ mem_of_getD l i default h
  exact List.one_le_count_iff.mpr this

theorem count_concat_eq {α : Type} [DecidableEq α] (l : List α) (x a : α) :
    List.count a (l ++ [x]) = List.count a l + (if x = a then 1 else 0) := by
  rw [List.count_append]
  congr 1
  by_cases h : x = a
  · subst h; simp
  · rw [if_neg h, List.count_eq_zero]
    simp only [List.mem_singleton]
    exact fun e => h e.symm

theorem count_cons_eq {α : Type} [DecidableEq α] (l : List α) (b a : α) :
    List.count a (b :: l) = (if b = a then 1 else 0) + List.count a l := by
  by_cases h : b = a
  · subst h; simp [List.count_cons_self, Nat.add_comm]
  · rw [if_neg h, List.count_cons_of_ne (fun e => h e.symm)]
    omega

end ListUtil

namespace Heapq

variable {α : Type} [DecidableEq α] [Inhabited α]

theorem parent_isChild {j : Nat} (h : 0 < j) : isChild ((j - 1) / 2) j := by
  unfold isChild
  omega

theorem isChild_parent_eq {i j : Nat} (h : isChild i j) : i = (j - 1) / 2 := by
  rcases h with h | h <;> omega

theorem isChild_lt {i j : Nat} (h : isChild i j) : i < j := by
  rcases h with h | h <;> omega

theorem isChild_pos {i j : Nat} (h : isChild i j) : 0 < j := by
  rcases h with h | h <;> omega

theorem hlt_true_iff (key : α → Int) (a b : α) :
    hlt key a b = true ↔ key b < key a := by
  simp [hlt]

theorem hlt_false_iff (key : α → Int) (a b : α) :
    ¬ hlt key a b = true ↔ key a ≤ key b := by
  simp [hlt]

/-- Every element of a heap has key at most the root's key. -/
theorem isHeap_le_root (key : α → Int) (heap : List α)
    (hh : IsHeap key heap) :
    ∀ j, j < heap.length →
      key (heap.getD j default) ≤ key (heap.getD 0 default) := by
  intro j
  induction j using Nat.strong_induction_on with
  | _ j ih =>
    intro hj
    rcases Nat.eq_zero_or_pos j with h0 | h0
    · subst h0; exact le_refl _
    · have hp := hh ((j - 1) / 2) j (parent_isChild h0) hj
      have hlt2 : (j - 1) / 2 < j := by omega
      exact le_trans hp (ih _ hlt2 (by omega))

/-- Invariant preservation for `_siftdown` (bubble-up of `newitem` from a
hole at `pos`): if all parent-child pairs away from the hole are ordered,
the hole's children are bounded by `newitem` and by the hole's parent, the
result is a heap. -/
theorem siftdownAux_isHeap (key : α → Int) :
    ∀ pos : Nat, ∀ heap : List α, ∀ newitem : α,
    pos < heap.length →
    (∀ i j, isChild i j → j < heap.length → i ≠ pos → j ≠ pos →
      key (heap.getD j default) ≤ key (heap.getD i default)) →
    (∀ j, isChild pos j → j < heap.length →
      key (heap.getD j default) ≤ key newitem) →
    (∀ j, isChild pos j → j < heap.length → 0 < pos →
      key (heap.getD j default) ≤ key (heap.getD ((pos - 1) / 2) default)) →
    IsHeap key (siftdownAux key heap 0 pos newitem) := by
  intro pos
  induction pos using Nat.strong_induction_on with
  | _ pos ih =>
    intro heap newitem hpos ha hb hc
    rw [siftdownAux]
    by_cases h : 0 < pos
    · rw [dif_pos h]
      by_cases hl : hlt key newitem (heap.getD ((pos - 1) / 2) default) = true
      · rw [if_pos hl]
        rw [hlt_true_iff] at hl
        have hpp : (pos - 1) / 2 < pos := by omega
        apply ih ((pos - 1) / 2) hpp
        · simp only [List.length_set]; omega
        · -- pairs away from the new hole
          intro i j hij hjlen hi hj
          simp only [List.length_set] at hjlen
          by_cases hjp : j = pos
          · exfalso
            apply hi
            rw [isChild_parent_eq hij, hjp]
          · by_cases hip : i = pos
            · subst hip
              rw [ListUtil.getD_set_ne _ _ _ (fun e => hjp e.symm),
                ListUtil.getD_set_self _ _ _ _ hpos]
              exact hc j hij hjlen h
            · rw [ListUtil.getD_set_ne _ _ _ (fun e => hjp e.symm),
                ListUtil.getD_set_ne _ _ _ (fun e => hip e.symm)]
              exact ha i j hij hjlen hip hjp
        · -- children of the new hole are at most the new item
          intro j hij hjlen
          simp only [List.length_set] at hjlen
          by_cases hjp : j = pos
          · subst hjp
            rw [ListUtil.getD_set_self _ _ _ _ hpos]
            exact le_of_lt hl
          · rw [ListUtil.getD_set_ne _ _ _ (fun e => hjp e.symm)]
            have hne : (pos - 1) / 2 ≠ pos := by omega
            exact le_trans (ha _ j hij hjlen hne hjp) (le_of_lt hl)
        · -- children of the new hole are at most its parent
          intro j hij hjlen hpp2
          simp only [List.length_set] at hjlen
          have hgp : ((pos - 1) / 2 - 1) / 2 ≠ pos := by omega
          rw [ListUtil.getD_set_ne _ _ _ (fun e => hgp e.symm)]
          have hplen : (pos - 1) / 2 < heap.length := by omega
          have hroof : key (heap.getD ((pos - 1) / 2) default) ≤
              key (heap.getD (((pos - 1) / 2 - 1) / 2) default) := by
            have hne1 : ((pos - 1) / 2 - 1) / 2 ≠ pos := hgp
            have hne2 : (pos - 1) / 2 ≠ pos := by omega
            exact ha _ _ (parent_isChild hpp2) hplen hne1 hne2
          by_cases hjp : j = pos
          · subst hjp
            rw [ListUtil.getD_set_self _ _ _ _ hpos]
            exact hroof
          · rw [ListUtil.getD_set_ne _ _ _ (fun e => hjp e.symm)]
            have hne : (pos - 1) / 2 ≠ pos := by omega
            exact le_trans (ha _ j hij hjlen hne hjp) hroof
      · rw [if_neg hl]
        rw [hlt_false_iff] at hl
        intro i j hij hjlen
        simp only [List.length_set] at hjlen
        by_cases hjp : j = pos
        · subst hjp
          have hieq : i = (j - 1) / 2 := isChild_parent_eq hij
          have hine : i ≠ j := by omega
          rw [ListUtil.getD_set_self _ _ _ _ hpos,
            ListUtil.getD_set_ne _ _ _ (fun e => hine e.symm), hieq]
          exact hl
        · by_cases hip : i = pos
          · subst hip
            rw [ListUtil.getD_set_ne _ _ _ (fun e => hjp e.symm),
              ListUtil.getD_set_self _ _ _ _ hpos]
            exact hb j hij hjlen
          · rw [ListUtil.getD_set_ne _ _ _ (fun e => hjp e.symm),
              ListUtil.getD_set_ne _ _ _ (fun e => hip e.symm)]
            exact ha i j hij hjlen hip hjp
    · rw [dif_neg h]
      have hp0 : pos = 0 := by omega
      subst hp0
      intro i j hij hjlen
      simp only [List.length_set] at hjlen
      have hj0 : j ≠ 0 := by
        have := isChild_pos hij
        omega
      by_cases hip : i = 0
      · subst hip
        rw [ListUtil.getD_set_ne _ _ _ (fun e => hj0 e.symm),
          ListUtil.getD_set_self _ _ _ _ hpos]
        exact hb j hij hjlen
      · rw [ListUtil.getD_set_ne _ _ _ (fun e => hj0 e.symm),
          ListUtil.getD_set_ne _ _ _ (fun e => hip e.symm)]
        exact ha i j hij hjlen hip hj0

/-- Invariant preservation for `_siftup` (descend the hole at `pos` along
larger children, then sift the moved last element down). -/
theorem siftupAux_isHeap (key : α → Int) :
    ∀ fuel : Nat, ∀ heap : List α, ∀ pos : Nat, ∀ newitem : α,
    heap.length - pos ≤ fuel →
    pos < heap.length →
    (∀ i j, isChild i j → j < heap.length → i ≠ pos → j ≠ pos →
      key (heap.getD j default) ≤ key (heap.getD i default)) →
    (∀ j, isChild pos j → j < heap.length → 0 < pos →
      key (heap.getD j default) ≤ key (heap.getD ((pos - 1) / 2) default)) →
    IsHeap key (siftupAux key heap pos newitem) := by
  intro fuel
  induction fuel with
  | zero => intro heap pos newitem hf hpos _ _; omega
  | succ fuel ih =>
    intro heap pos newitem hf hpos ha hb
    have step : ∀ c, isChild pos c → c < heap.length →
        (∀ s, isChild pos s → s < heap.length →
          key (heap.getD s default) ≤ key (heap.getD c default)) →
        IsHeap key
          (siftupAux key (heap.set pos (heap.getD c default)) c newitem) := by
      intro c hpc hclen hsib
      have hposc : pos < c := isChild_lt hpc
      apply ih
      · simp only [List.length_set]; omega
      · simp only [List.length_set]; omega
      · intro i j hij hjlen hi hj
        simp only [List.length_set] at hjlen
        by_cases hjp : j = pos
        · subst hjp
          have h0 : 0 < j := isChild_pos hij
          have hieq : i = (j - 1) / 2 := isChild_parent_eq hij
          have hine : i ≠ j := by omega
          rw [ListUtil.getD_set_self _ _ _ _ hpos,
            ListUtil.getD_set_ne _ _ _ (fun e => hine e.symm), hieq]
          exact hb c hpc hclen h0
        · by_cases hip : i = pos
          · subst hip
            rw [ListUtil.getD_set_ne _ _ _ (fun e => hjp e.symm),
              ListUtil.getD_set_self _ _ _ _ hpos]
            exact hsib j hij hjlen
          · rw [ListUtil.getD_set_ne _ _ _ (fun e => hjp e.symm),
              ListUtil.getD_set_ne _ _ _ (fun e => hip e.symm)]
            exact ha i j hij hjlen hip hjp
      · intro j hij hjlen _
        simp only [List.length_set] at hjlen
        have hcpar : pos = (c - 1) / 2 := isChild_parent_eq hpc
        have hjc : c < j := isChild_lt hij
        have hjne : j ≠ pos := by omega
        rw [ListUtil.getD_set_ne _ _ _ (fun e => hjne e.symm), ← hcpar,
          ListUtil.getD_set_self _ _ _ _ hpos]
        have hcne : c ≠ pos := by omega
        exact ha c j hij hjlen hcne hjne
    rw [siftupAux]
    by_cases h : 2 * pos + 1 < heap.length
    · rw [dif_pos h]
      by_cases h2 : 2 * pos + 2 < heap.length ∧
          ¬ hlt key (heap.getD (2 * pos + 1) default)
            (heap.getD (2 * pos + 2) default) = true
      · rw [dif_pos h2]
        apply step (2 * pos + 2) (Or.inr rfl) h2.1
        intro s hs hslen
        rcases hs with hs | hs
        · subst hs
          exact (hlt_false_iff key _ _).mp h2.2
        · subst hs; exact le_refl _
      · rw [dif_neg h2]
        apply step (2 * pos + 1) (Or.inl rfl) h
        intro s hs hslen
        rcases hs with hs | hs
        · subst hs; exact le_refl _
        · subst hs
          have hr : hlt key (heap.getD (2 * pos + 1) default)
              (heap.getD (2 * pos + 2) default) = true := by
            by_contra hcon
            exact h2 ⟨hslen, hcon⟩
          exact le_of_lt ((hlt_true_iff key _ _).mp hr)
    · rw [dif_neg h]
      apply siftdownAux_isHeap key pos (heap.set pos newitem) newitem
      · simp only [List.length_set]; omega
      · intro i j hij hjlen hi hj
        simp only [List.length_set] at hjlen
        rw [ListUtil.getD_set_ne _ _ _ (fun e => hj e.symm),
          ListUtil.getD_set_ne _ _ _ (fun e => hi e.symm)]
        exact ha i j hij hjlen hi hj
      · intro j hij hjlen
        simp only [List.length_set] at hjlen
        exfalso
        rcases hij with hj1 | hj1 <;> omega
      · intro j hij hjlen _
        simp only [List.length_set] at hjlen
        exfalso
        rcases hij with hj1 | hj1 <;> omega

/-- The empty list is a heap. -/
theorem isHeap_nil (key : α → Int) : IsHeap key ([] : List α) := by
  intro i j _ hjlen
  simp at hjlen

/-- Pushing preserves the heap invariant. -/
theorem heappush_isHeap (key : α → Int) (heap : List α) (item : α)
    (hh : IsHeap key heap) : IsHeap key (heappush key heap item) := by
  unfold heappush
  apply siftdownAux_isHeap
  · simp
  · intro i j hij hjlen hi hj
    simp only [List.length_append, List.length_cons, List.length_nil] at hjlen
    have hjl : j < heap.length := by omega
    have hil : i < heap.length := lt_trans (isChild_lt hij) hjl
    rw [ListUtil.getD_append_left _ _ _ _ hjl,
      ListUtil.getD_append_left _ _ _ _ hil]
    exact hh i j hij hjl
  · intro j hij hjlen
    simp only [List.length_append, List.length_cons, List.length_nil] at hjlen
    exfalso
    rcases hij with h1 | h1 <;> omega
  · intro j hij hjlen _
    simp only [List.length_append, List.length_cons, List.length_nil] at hjlen
    exfalso
    rcases hij with h1 | h1 <;> omega

/-- Popping preserves the heap invariant. -/
theorem heappop_isHeap (key : α → Int) (heap : List α) (r : α)
    (rest : List α) (hh : IsHeap key heap)
    (h : heappop key heap = some (r, rest)) : IsHeap key rest := by
  unfold heappop at h
  by_cases he : heap.isEmpty
  · rw [if_pos he] at h
    exact absurd h (by simp)
  · rw [if_neg he] at h
    by_cases he2 : heap.dropLast.isEmpty
    · rw [if_pos he2] at h
      simp only [Option.some.injEq, Prod.mk.injEq] at h
      obtain ⟨-, h2⟩ := h
      rw [← h2]
      exact isHeap_nil key
    · rw [if_neg he2] at h
      simp only [Option.some.injEq, Prod.mk.injEq] at h
      obtain ⟨-, h2⟩ := h
      rw [← h2]
      have hmlen : 0 < heap.dropLast.length := by
        rcases List.isEmpty_iff.not.mp he2 with hne
        exact List.length_pos.mpr (by exact hne)
      apply siftupAux_isHeap key
        ((heap.dropLast.set 0 (heap.getD (heap.length - 1) default)).length)
      · omega
      · simp only [List.length_set]; omega
      · intro i j hij hjlen hi hj
        simp only [List.length_set] at hjlen
        have hjd : j < heap.length - 1 := by
          simp only [List.length_dropLast] at hjlen; omega
        have hid : i < heap.length - 1 := by
          have := isChild_lt hij; omega
        rw [ListUtil.getD_set_ne _ _ _ (fun e => hj e.symm),
          ListUtil.getD_set_ne _ _ _ (fun e => hi e.symm),
          ListUtil.getD_dropLast _ _ _ hjd, ListUtil.getD_dropLast _ _ _ hid]
        exact hh i j hij (by omega)
      · intro j hij hjlen h0
        exact absurd h0 (lt_irrefl 0)

/-- The element returned by `heappop` has maximal key among the heap's
elements. -/
theorem heappop_max (key : α → Int) (heap : List α) (r : α)
    (rest : List α) (hh : IsHeap key heap)
    (h : heappop key heap = some (r, rest)) :
    ∀ x ∈ heap, key x ≤ key r := by
  unfold heappop at h
  by_cases he : heap.isEmpty
  · rw [if_pos he] at h
    exact absurd h (by simp)
  · rw [if_neg he] at h
    have hne : heap ≠ [] := by
      intro hc; rw [hc] at he; exact he rfl
    by_cases he2 : heap.dropLast.isEmpty
    · rw [if_pos he2] at h
      simp only [Option.some.injEq, Prod.mk.injEq] at h
      obtain ⟨h1, -⟩ := h
      have hlen : heap.length = 1 := by
        have h0 : 0 < heap.length := List.length_pos.mpr hne
        have h1l : heap.dropLast.length = 0 := by
          rw [List.isEmpty_iff.mp he2]
          rfl
        simp only [List.length_dropLast] at h1l
        omega
      obtain ⟨a, ha⟩ := List.length_eq_one.mp hlen
      subst ha
      intro x hx
      rcases List.mem_singleton.mp hx with rfl
      have h1a : x = r := by simpa using h1
      rw [← h1a]
    · rw [if_neg he2] at h
      simp only [Option.some.injEq, Prod.mk.injEq] at h
      obtain ⟨h1, -⟩ := h
      have hmlen : 0 < heap.dropLast.length := by
        rcases List.isEmpty_iff.not.mp he2 with hne2
        exact List.length_pos.mpr (by exact hne2)
      have hr : r = heap.getD 0 default := by
        rw [← h1]
        rw [ListUtil.getD_dropLast _ _ _ (by simp only [List.length_dropLast] at hmlen; omega)]
      intro x hx
      obtain ⟨j, hj, hje⟩ := List.mem_iff_getElem.mp hx
      rw [hr, ← hje, ← ListUtil.getD_eq_getElem _ _ _ hj]
      exact isHeap_le_root key heap hh j hj

/-- Sifting down only permutes the array with the new item written at the
hole. -/
theorem siftdownAux_perm (key : α → Int) :
    ∀ pos : Nat, ∀ heap : List α, ∀ newitem : α, pos < heap.length →
    (siftdownAux key heap 0 pos newitem).Perm (heap.set pos newitem) := by
  intro pos
  induction pos using Nat.strong_induction_on with
  | _ pos ih =>
    intro heap newitem hpos
    rw [siftdownAux]
    by_cases h : 0 < pos
    · rw [dif_pos h]
      by_cases hl : hlt key newitem (heap.getD ((pos - 1) / 2) default) = true
      · rw [if_pos hl]
        have hpp : (pos - 1) / 2 < pos := by omega
        have hplen : (pos - 1) / 2 < heap.length := by omega
        have ihp := ih _ hpp
          (heap.set pos (heap.getD ((pos - 1) / 2) default)) newitem
          (by simp only [List.length_set]; omega)
        apply ihp.trans
        rw [List.perm_iff_count]
        intro a
        rw [ListUtil.count_set_getD _ _ _ _
            (by simp only [List.length_set]; omega),
          ListUtil.count_set_getD _ _ _ _ hpos,
          ListUtil.count_set_getD _ _ _ _ hpos,
          ListUtil.getD_set_ne _ _ _ (by omega : pos ≠ (pos - 1) / 2)]
        have hc1 := ListUtil.one_le_count_of_getD heap pos a hpos
        split_ifs <;> simp_all <;> omega
      · rw [if_neg hl]
    · rw [dif_neg h]

/-- Sifting up only permutes the array with the new item written at the
hole. -/
theorem siftupAux_perm (key : α → Int) :
    ∀ fuel : Nat, ∀ heap : List α, ∀ pos : Nat, ∀ newitem : α,
    heap.length - pos ≤ fuel → pos < heap.length →
    (siftupAux key heap pos newitem).Perm (heap.set pos newitem) := by
  intro fuel
  induction fuel with
  | zero => intro heap pos newitem hf hpos; omega
  | succ fuel ih =>
    intro heap pos newitem hf hpos
    have step : ∀ c, pos < c → c < heap.length →
        (siftupAux key (heap.set pos (heap.getD c default)) c
          newitem).Perm (heap.set pos newitem) := by
      intro c hpc hclen
      have ihp := ih (heap.set pos (heap.getD c default)) c newitem
        (by simp only [List.length_set]; omega)
        (by simp only [List.length_set]; omega)
      apply ihp.trans
      rw [List.perm_iff_count]
      intro a
      rw [ListUtil.count_set_getD _ _ _ _
          (by simp only [List.length_set]; omega),
        ListUtil.count_set_getD _ _ _ _ hpos,
        ListUtil.count_set_getD _ _ _ _ hpos,
        ListUtil.getD_set_ne _ _ _ (by omega : pos ≠ c)]
      have hc1 := ListUtil.one_le_count_of_getD heap pos a hpos
      split_ifs <;> simp_all <;> omega
    rw [siftupAux]
    by_cases h : 2 * pos + 1 < heap.length
    · rw [dif_pos h]
      by_cases h2 : 2 * pos + 2 < heap.length ∧
          ¬ hlt key (heap.getD (2 * pos + 1) default)
            (heap.getD (2 * pos + 2) default) = true
      · rw [dif_pos h2]
        exact step (2 * pos + 2) (by omega) h2.1
      · rw [dif_neg h2]
        exact step (2 * pos + 1) (by omega) h
    · rw [dif_neg h]
      have hsd := siftdownAux_perm key pos (heap.set pos newitem) newitem
        (by simp only [List.length_set]; omega)
      apply hsd.trans
      rw [List.perm_iff_count]
      intro a
      rw [ListUtil.count_set_getD _ _ _ _
          (by simp only [List.length_set]; omega),
        ListUtil.count_set_getD _ _ _ _ hpos,
        ListUtil.getD_set_self _ _ _ _ hpos]
      have hc1 := ListUtil.one_le_count_of_getD heap pos a hpos
      split_ifs <;> simp_all <;> omega

/-- A push adds exactly the pushed element (as a multiset). -/
theorem heappush_perm (key : α → Int) (heap : List α) (item : α) :
    (heappush key heap item).Perm (item :: heap) := by
  unfold heappush
  have hsd := siftdownAux_perm key heap.length (heap ++ [item]) item
    (by simp)
  rw [ListUtil.set_append_len] at hsd
  exact hsd.trans (List.perm_append_singleton item heap)

/-- A pop removes exactly the returned element (as a multiset). -/
theorem heappop_perm (key : α → Int) (heap : List α) (r : α)
    (rest : List α) (h : heappop key heap = some (r, rest)) :
    heap.Perm (r :: rest) := by
  unfold heappop at h
  by_cases he : heap.isEmpty
  · rw [if_pos he] at h
    exact absurd h (by simp)
  · rw [if_neg he] at h
    have hne : heap ≠ [] := by
      intro hc; rw [hc] at he; exact he rfl
    by_cases he2 : heap.dropLast.isEmpty
    · rw [if_pos he2] at h
      simp only [Option.some.injEq, Prod.mk.injEq] at h
      obtain ⟨h1, h2⟩ := h
      have hlen : heap.length = 1 := by
        have h0 : 0 < heap.length := List.length_pos.mpr hne
        have h1l : heap.dropLast.length = 0 := by
          rw [List.isEmpty_iff.mp he2]
          rfl
        simp only [List.length_dropLast] at h1l
        omega
      obtain ⟨a, ha⟩ := List.length_eq_one.mp hlen
      subst ha
      have h1a : a = r := by simpa using h1
      rw [← h2, ← h1a]
    · rw [if_neg he2] at h
      simp only [Option.some.injEq, Prod.mk.injEq] at h
      obtain ⟨h1, h2⟩ := h
      have hmlen : 0 < heap.dropLast.length := by
        rcases List.isEmpty_iff.not.mp he2 with hne2
        exact List.length_pos.mpr (by exact hne2)
      have hsu := siftupAux_perm key
        ((heap.dropLast.set 0 (heap.getD (heap.length - 1) default)).length)
        (heap.dropLast.set 0 (heap.getD (heap.length - 1) default)) 0
        (heap.getD (heap.length - 1) default)
        (by omega) (by simp only [List.length_set]; omega)
      rw [← h2, ← h1]
      rw [List.perm_iff_count]
      intro a
      have hcheap : List.count a heap = List.count a heap.dropLast +
          (if heap.getD (heap.length - 1) default = a then 1 else 0) := by
        conv_lhs => rw [← ListUtil.dropLast_append_getD heap hne]
        exact ListUtil.count_concat_eq _ _ _
      rw [hcheap, ListUtil.count_cons_eq, hsu.count_eq a,
        ListUtil.count_set_getD _ _ _ _
          (by simp only [List.length_set]; omega),
        ListUtil.getD_set_self _ _ _ _ hmlen,
        ListUtil.count_set_getD _ _ _ _ hmlen]
      have hc1 := ListUtil.one_le_count_of_getD heap.dropLast 0 a hmlen
      split_ifs <;> simp_all <;> omega

/-- Popping the empty heap is the only way to get `none`. -/
theorem heappop_eq_none_iff (key : α → Int) (heap : List α) :
    heappop key heap = none ↔ heap = [] := by
  unfold heappop
  by_cases he : heap.isEmpty
  · rw [if_pos he]
    simp [List.isEmpty_iff.mp he]
  · rw [if_neg he]
    constructor
    · intro h
      by_cases he2 : heap.dropLast.isEmpty
      · rw [if_pos he2] at h; exact absurd h (by simp)
      · rw [if_neg he2] at h; exact absurd h (by simp)
    · intro h
      rw [h] at he
      exact absurd rfl he

/-- Every drained element was stored in the heap. -/
theorem drain_mem (key : α → Int) :
    ∀ fuel : Nat, ∀ heap : List α, ∀ x : α,
    x ∈ drain key heap fuel → x ∈ heap := by
  intro fuel
  induction fuel with
  | zero => intro heap x hx; exact absurd hx (by simp [drain])
  | succ fuel ih =>
    intro heap x hx
    unfold drain at hx
    rcases hpop : heappop key heap with - | rrest
    · rw [hpop] at hx
      exact absurd hx (by simp)
    · obtain ⟨r, rest⟩ := rrest
      rw [hpop] at hx
      have hperm := heappop_perm key heap r rest hpop
      rcases List.mem_cons.mp hx with hx1 | hx1
      · subst hx1
        exact hperm.symm.subset (List.mem_cons_self _ _)
      · exact hperm.symm.subset (List.mem_cons_of_mem _ (ih rest x hx1))

/-- Draining a heap yields keys in non-increasing order. -/
theorem drain_sorted (key : α → Int) :
    ∀ fuel : Nat, ∀ heap : List α, IsHeap key heap →
    (drain key heap fuel).Pairwise (fun a b => key b ≤ key a) := by
  intro fuel
  induction fuel with
  | zero => intro heap _; simp [drain]
  | succ fuel ih =>
    intro heap hh
    unfold drain
    rcases hpop : heappop key heap with - | rrest
    · simp
    · obtain ⟨r, rest⟩ := rrest
      simp only []
      apply List.Pairwise.cons
      · intro y hy
        have hyr : y ∈ rest := drain_mem key fuel rest y hy
        have hperm := heappop_perm key heap r rest hpop
        have hymem : y ∈ heap :=
          hperm.symm.subset (List.mem_cons_of_mem _ hyr)
        exact heappop_max key heap r rest hh hpop y hymem
      · exact ih rest (heappop_isHeap key heap r rest hh hpop)

/-- With enough fuel, draining returns exactly the stored multiset. -/
theorem drain_perm (key : α → Int) :
    ∀ fuel : Nat, ∀ heap : List α, heap.length ≤ fuel →
    (drain key heap fuel).Perm heap := by
  intro fuel
  induction fuel with
  | zero =>
    intro heap hf
    have : heap = [] := List.length_eq_zero.mp (by omega)
    subst this
    simp [drain]
  | succ fuel ih =>
    intro heap hf
    unfold drain
    rcases hpop : heappop key heap with - | rrest
    · have : heap = [] := (heappop_eq_none_iff key heap).mp hpop
      subst this
      simp
    · obtain ⟨r, rest⟩ := rrest
      simp only []
      have hperm := heappop_perm key heap r rest hpop
      have hlen : heap.length = rest.length + 1 := by
        have := hperm.length_eq
        simpa using this
      have htail := ih rest (by omega)
      exact (htail.cons r).trans hperm.symm


end Heapq

theorem traverseStep_fields (t : NodeTracker) (n : Node) :
    (t.traverseStep n).max_depth = t.max_depth ∧
      (t.traverseStep n).select_k = t.select_k ∧
      (t.traverseStep n).selected = t.selected := by
  unfold NodeTracker.traverseStep
  split_ifs <;> simp

theorem traverseStep_visited_mono (t : NodeTracker) (n : Node) (x : String)
    (h : x ∈ t.visited_node_ids) :
    x ∈ (t.traverseStep n).visited_node_ids := by
  unfold NodeTracker.traverseStep
  split_ifs <;> simp [h]

theorem traverseStep_inv (t : NodeTracker) (n : Node) (h : TrackerInv t) :
    TrackerInv (t.traverseStep n) := by
  obtain ⟨h1, h2⟩ := h
  unfold NodeTracker.traverseStep
  by_cases hv : n.id ∈ t.visited_node_ids
  · rw [if_pos hv]; exact ⟨h1, h2⟩
  · rw [if_neg hv]
    by_cases hd : t.depth_blocked n
    · rw [if_pos hd]; exact ⟨h1, h2⟩
    · rw [if_neg hd]
      constructor
      · intro m hm
        simp only [List.mem_append, List.mem_singleton] at hm
        rcases hm with hm | hm
        · obtain ⟨hma, hmb⟩ := h1 m hm
          exact ⟨hma, by simp [hmb]⟩
        · subst hm
          constructor
          · intro d hdep
            unfold NodeTracker.depth_blocked at hd
            rw [hdep] at hd
            simp at hd
            omega
          · simp
      · simp only [List.map_append, List.map_cons, List.map_nil]
        rw [List.nodup_append]
        refine ⟨h2, List.nodup_singleton _, ?_⟩
        intro x hx
        simp only [List.mem_singleton]
        intro he
        subst he
        obtain ⟨m, hm, hmid⟩ := List.mem_map.mp hx
        have := (h1 m hm).2
        rw [hmid] at this
        exact hv this

theorem traverse_fold_inv (t : NodeTracker) (ns : List Node)
    (h : TrackerInv t) : TrackerInv (ns.foldl NodeTracker.traverseStep t) := by
  induction ns generalizing t with
  | nil => exact h
  | cons n ns ih => exact ih _ (traverseStep_inv t n h)

theorem applyOp_inv (t : NodeTracker) (op : TrackerOp) (h : TrackerInv t) :
    TrackerInv (applyOp t op) := by
  cases op with
  | select ns =>
    obtain ⟨h1, h2⟩ := h
    exact ⟨h1, h2⟩
  | traverse ns => exact traverse_fold_inv t ns h
  | select_and_traverse ns =>
    apply traverse_fold_inv
    obtain ⟨h1, h2⟩ := h
    exact ⟨h1, h2⟩

theorem runOps_inv (t : NodeTracker) (ops : List TrackerOp)
    (h : TrackerInv t) : TrackerInv (runOps t ops) := by
  induction ops generalizing t with
  | nil => exact h
  | cons op ops ih => exact ih _ (applyOp_inv t op h)

theorem init_inv (k : Nat) (md : Option Nat) :
    TrackerInv (NodeTracker.init k md) := by
  constructor
  · intro n hn; exact absurd hn (by simp [NodeTracker.init])
  · simp [NodeTracker.init]

theorem foldl_traverseStep_max_depth (ns : List Node) (t : NodeTracker) :
    (ns.foldl NodeTracker.traverseStep t).max_depth = t.max_depth := by
  induction ns generalizing t with
  | nil => rfl
  | cons n ns ih => rw [List.foldl_cons, ih, (traverseStep_fields t n).1]

theorem applyOp_max_depth (t : NodeTracker) (op : TrackerOp) :
    (applyOp t op).max_depth = t.max_depth := by
  cases op with
  | select ns => rfl
  | traverse ns => exact foldl_traverseStep_max_depth ns t
  | select_and_traverse ns => exact foldl_traverseStep_max_depth ns (t.select ns)

theorem runOps_max_depth (t : NodeTracker) (ops : List TrackerOp) :
    (runOps t ops).max_depth = t.max_depth := by
  induction ops generalizing t with
  | nil => rfl
  | cons op ops ih => rw [runOps, List.foldl_cons, ← runOps, ih, applyOp_max_depth]

theorem foldl_traverseStep_selected (ns : List Node) (t : NodeTracker) :
    (ns.foldl NodeTracker.traverseStep t).selected = t.selected := by
  induction ns generalizing t with
  | nil => rfl
  | cons n ns ih => rw [List.foldl_cons, ih, (traverseStep_fields t n).2.2]

theorem select_and_traverse_selected (t : NodeTracker) (ns : List Node) :
    ((t.select_and_traverse ns).1).selected = t.selected ++ ns := by
  show ((ns.foldl NodeTracker.traverseStep (t.select ns))).selected = _
  rw [foldl_traverseStep_selected]
  rfl

namespace Scored

theorem popLoop_selected_length :
    ∀ limit : Nat, ∀ heap : List SNode, ∀ t : NodeTracker,
    ((popLoop heap t limit).2).selected.length =
      t.selected.length + min limit heap.length := by
  intro limit
  induction limit with
  | zero => intro heap t; simp [popLoop]
  | succ limit ih =>
    intro heap t
    unfold popLoop
    rcases hpop : Heapq.heappop SNode.score heap with - | rrest
    · have he : heap = [] := (Heapq.heappop_eq_none_iff _ _).mp hpop
      subst he
      simp
    · obtain ⟨top, rest⟩ := rrest
      simp only []
      have hperm := Heapq.heappop_perm SNode.score heap top rest hpop
      have hlen : heap.length = rest.length + 1 := by
        simpa using hperm.length_eq
      rw [ih, select_and_traverse_selected]
      simp only [List.length_append, List.length_cons, List.length_nil,
        hlen]
      omega

theorem pushAll_perm (scorer : Node → Int) (heap : List SNode)
    (nodes : List Node) :
    (pushAll scorer heap nodes).Perm
      (nodes.map (fun n => ⟨scorer n, n⟩) ++ heap) := by
  induction nodes generalizing heap with
  | nil => simp [pushAll]
  | cons n ns ih =>
    show (pushAll scorer
        (Heapq.heappush SNode.score heap ⟨scorer n, n⟩) ns).Perm _
    apply (ih (Heapq.heappush SNode.score heap ⟨scorer n, n⟩)).trans
    have h2 := Heapq.heappush_perm SNode.score heap ⟨scorer n, n⟩
    apply (List.Perm.append_left _ h2).trans
    simpa using List.perm_middle

theorem pushAll_isHeap (scorer : Node → Int) (heap : List SNode)
    (nodes : List Node) (hh : Heapq.IsHeap SNode.score heap) :
    Heapq.IsHeap SNode.score (pushAll scorer heap nodes) := by
  induction nodes generalizing heap with
  | nil => exact hh
  | cons n ns ih =>
    exact ih _ (Heapq.heappush_isHeap SNode.score heap ⟨scorer n, n⟩ hh)

end Scored


theorem runHeapOps_isHeap (ops : List HeapOp) :
    Heapq.IsHeap SNode.score (runHeapOps ops) := by
  suffices h : ∀ h0 : List SNode, Heapq.IsHeap SNode.score h0 →
      Heapq.IsHeap SNode.score (ops.foldl
        (fun h op =>
          match op with
          | .push s => Heapq.heappush SNode.score h s
          | .pop =>
            match Heapq.heappop SNode.score h with
            | none => h
            | some (_, rest) => rest)
        h0) by
    exact h [] (Heapq.isHeap_nil SNode.score)
  induction ops with
  | nil => intro h0 hh; exact hh
  | cons op ops ih =>
    intro h0 hh
    rw [List.foldl_cons]
    apply ih
    cases op with
    | push s => exact Heapq.heappush_isHeap SNode.score h0 s hh
    | pop =>
      rcases hpop : Heapq.heappop SNode.score h0 with - | rrest
      · simpa [hpop] using hh
      · obtain ⟨r, rest⟩ := rrest
        simpa [hpop] using
          Heapq.heappop_isHeap SNode.score h0 r rest hh hpop

/-- Non-strict pairwise ordering plus distinct keys gives strict pairwise
ordering. -/
theorem pairwise_lt_of_pairwise_le {β : Type} (keyf : β → Int) (l : List β)
    (hle : l.Pairwise (fun a b => keyf a ≤ keyf b))
    (hnd : (l.map keyf).Nodup) :
    l.Pairwise (fun a b => keyf a < keyf b) := by
  have hne : l.Pairwise (fun a b => keyf a ≠ keyf b) :=
    List.pairwise_map.mp hnd
  exact (hle.and hne).imp (fun h => lt_of_le_of_ne h.1 h.2)

/-- Two strictly key-sorted lists that are permutations of one another are
equal. -/
theorem eq_of_perm_of_pairwise_lt {β : Type} (keyf : β → Int)
    (l1 l2 : List β) (hp : l1.Perm l2)
    (h1 : l1.Pairwise (fun a b => keyf a < keyf b))
    (h2 : l2.Pairwise (fun a b => keyf a < keyf b)) : l1 = l2 := by
  haveI : IsAntisymm β (fun a b => keyf a < keyf b) :=
    ⟨fun a b hab hba => absurd (lt_trans hab hba) (lt_irrefl _)⟩
  exact List.eq_of_perm_of_sorted hp h1 h2

namespace LcScored

theorem discover_perm (scorer : Node → Int) (heap : List (Int × Node))
    (nodes : List Node) :
    (discover_nodes scorer heap nodes).Perm
      (nodes.map (fun n => (scorer n, n)) ++ heap) := by
  induction nodes generalizing heap with
  | nil => simp [discover_nodes]
  | cons n ns ih =>
    show (discover_nodes scorer
        (Heapq.heappush lcKey heap (scorer n, n)) ns).Perm _
    apply (ih (Heapq.heappush lcKey heap (scorer n, n))).trans
    have h2 := Heapq.heappush_perm lcKey heap (scorer n, n)
    apply (List.Perm.append_left _ h2).trans
    simpa using List.perm_middle

theorem discover_isHeap (scorer : Node → Int) (heap : List (Int × Node))
    (nodes : List Node) (hh : Heapq.IsHeap lcKey heap) :
    Heapq.IsHeap lcKey (discover_nodes scorer heap nodes) := by
  induction nodes generalizing heap with
  | nil => exact hh
  | cons n ns ih =>
    exact ih _ (Heapq.heappush_isHeap lcKey heap (scorer n, n) hh)

end LcScored

namespace TopK

theorem insertDesc_perm (c : Content) (l : List Content) :
    (insertDesc c l).Perm (c :: l) := by
  induction l with
  | nil => exact List.Perm.refl _
  | cons x xs ih =>
    unfold insertDesc
    by_cases h : x.score ≤ c.score
    · rw [if_pos h]
    · rw [if_neg h]
      exact (List.Perm.cons x ih).trans (List.Perm.swap c x xs)

theorem insertDesc_pairwise (c : Content) (l : List Content)
    (h : l.Pairwise (fun a b => b.score ≤ a.score)) :
    (insertDesc c l).Pairwise (fun a b => b.score ≤ a.score) := by
  induction l with
  | nil => simp [insertDesc]
  | cons x xs ih =>
    rw [List.pairwise_cons] at h
    obtain ⟨hx, hxs⟩ := h
    unfold insertDesc
    by_cases hc : x.score ≤ c.score
    · rw [if_pos hc, List.pairwise_cons]
      constructor
      · intro y hy
        rcases List.mem_cons.mp hy with rfl | hy2
        · exact hc
        · exact le_trans (hx y hy2) hc
      · rw [List.pairwise_cons]
        exact ⟨hx, hxs⟩
    · rw [if_neg hc, List.pairwise_cons]
      constructor
      · intro y hy
        have hmem : y ∈ c :: xs := (insertDesc_perm c xs).subset hy
        rcases List.mem_cons.mp hmem with rfl | hy3
        · exact le_of_lt (lt_of_not_le hc)
        · exact hx y hy3
      · exact ih hxs

theorem sortDesc_perm (l : List Content) : (sortDesc l).Perm l := by
  induction l with
  | nil => exact List.Perm.refl _
  | cons c cs ih =>
    show (insertDesc c (sortDesc cs)).Perm (c :: cs)
    exact (insertDesc_perm c _).trans (ih.cons c)

theorem sortDesc_pairwise (l : List Content) :
    (sortDesc l).Pairwise (fun a b => b.score ≤ a.score) := by
  induction l with
  | nil => simp [sortDesc]
  | cons c cs ih => exact insertDesc_pairwise c _ ih

theorem dedupLoop_length (k : Nat) :
    ∀ rest acc : List Content, acc.length < k →
    (dedupLoop k acc rest).length ≤ k := by
  intro rest
  induction rest with
  | nil => intro acc h; simpa [dedupLoop] using le_of_lt h
  | cons c cs ih =>
    intro acc h
    unfold dedupLoop
    by_cases hdup : acc.any (fun r => r.id == c.id)
    · rw [if_pos hdup, if_neg (by omega)]
      exact ih acc h
    · rw [if_neg hdup]
      by_cases hbreak : k ≤ (acc ++ [c]).length
      · rw [if_pos hbreak]
        simp only [List.length_append, List.length_cons, List.length_nil]
        omega
      · rw [if_neg hbreak]
        apply ih
        simp only [List.length_append, List.length_cons, List.length_nil] at hbreak ⊢
        omega

theorem dedupLoop_nodup (k : Nat) :
    ∀ rest acc : List Content, (acc.map Content.id).Nodup →
    ((dedupLoop k acc rest).map Content.id).Nodup := by
  intro rest
  induction rest with
  | nil => intro acc h; simpa [dedupLoop] using h
  | cons c cs ih =>
    intro acc h
    unfold dedupLoop
    by_cases hdup : acc.any (fun r => r.id == c.id)
    · rw [if_pos hdup]
      by_cases hbreak : k ≤ acc.length
      · rw [if_pos hbreak]; exact h
      · rw [if_neg hbreak]; exact ih acc h
    · rw [if_neg hdup]
      have hnew : (((acc ++ [c]).map Content.id)).Nodup := by
        simp only [List.map_append, List.map_cons, List.map_nil]
        rw [List.nodup_append]
        refine ⟨h, List.nodup_singleton _, ?_⟩
        intro x hx
        simp only [List.mem_singleton]
        intro he
        subst he
        obtain ⟨m, hm, hmid⟩ := List.mem_map.mp hx
        rw [List.any_eq_true] at hdup
        exact hdup ⟨m, hm, by simp [hmid]⟩
      by_cases hbreak : k ≤ (acc ++ [c]).length
      · rw [if_pos hbreak]; exact hnew
      · rw [if_neg hbreak]; exact ih _ hnew

theorem dedupLoop_sorted (k : Nat) :
    ∀ rest acc : List Content,
    acc.Pairwise (fun a b => b.score ≤ a.score) →
    rest.Pairwise (fun a b => b.score ≤ a.score) →
    (∀ a ∈ acc, ∀ x ∈ rest, x.score ≤ a.score) →
    (dedupLoop k acc rest).Pairwise (fun a b => b.score ≤ a.score) := by
  intro rest
  induction rest with
  | nil => intro acc ha _ _; simpa [dedupLoop] using ha
  | cons c cs ih =>
    intro acc ha hr hd
    rw [List.pairwise_cons] at hr
    obtain ⟨hc, hcs⟩ := hr
    unfold dedupLoop
    by_cases hdup : acc.any (fun r => r.id == c.id)
    · rw [if_pos hdup]
      by_cases hbreak : k ≤ acc.length
      · rw [if_pos hbreak]; exact ha
      · rw [if_neg hbreak]
        exact ih acc ha hcs
          (fun a hamem x hx => hd a hamem x (List.mem_cons_of_mem c hx))
    · rw [if_neg hdup]
      have hacc2 : (acc ++ [c]).Pairwise (fun a b => b.score ≤ a.score) := by
        rw [List.pairwise_append]
        refine ⟨ha, List.pairwise_singleton _ _, ?_⟩
        intro a hamem x hx
        rcases List.mem_singleton.mp hx with rfl
        exact hd a hamem x (List.mem_cons_self x cs)
      by_cases hbreak : k ≤ (acc ++ [c]).length
      · rw [if_pos hbreak]; exact hacc2
      · rw [if_neg hbreak]
        apply ih _ hacc2 hcs
        intro a hamem x hx
        rcases List.mem_append.mp hamem with haa | hac
        · exact hd a haa x (List.mem_cons_of_mem c hx)
        · rcases List.mem_singleton.mp hac with rfl
          exact hc x hx

theorem dedupLoop_subset (k : Nat) :
    ∀ rest acc : List Content, ∀ x, x ∈ dedupLoop k acc rest →
    x ∈ acc ∨ x ∈ rest := by
  intro rest
  induction rest with
  | nil => intro acc x h; left; simpa [dedupLoop] using h
  | cons c cs ih =>
    intro acc x h
    unfold dedupLoop at h
    by_cases hdup : acc.any (fun r => r.id == c.id)
    · rw [if_pos hdup] at h
      by_cases hbreak : k ≤ acc.length
      · rw [if_pos hbreak] at h; exact Or.inl h
      · rw [if_neg hbreak] at h
        rcases ih acc x h with h2 | h2
        · exact Or.inl h2
        · exact Or.inr (List.mem_cons_of_mem c h2)
    · rw [if_neg hdup] at h
      by_cases hbreak : k ≤ (acc ++ [c]).length
      · rw [if_pos hbreak] at h
        rcases List.mem_append.mp h with h2 | h2
        · exact Or.inl h2
        · rcases List.mem_singleton.mp h2 with rfl
          exact Or.inr (List.mem_cons_self x cs)
      · rw [if_neg hbreak] at h
        rcases ih _ x h with h2 | h2
        · rcases List.mem_append.mp h2 with h3 | h3
          · exact Or.inl h3
          · rcases List.mem_singleton.mp h3 with rfl
            exact Or.inr (List.mem_cons_self x cs)
        · exact Or.inr (List.mem_cons_of_mem c h2)

theorem dedupLoop_dominates (k : Nat) :
    ∀ rest acc : List Content,
    rest.Pairwise (fun a b => b.score ≤ a.score) →
    ∀ r ∈ dedupLoop k acc rest,
      r ∈ acc ∨
        (r ∈ rest ∧ r.id ∉ acc.map Content.id ∧
          ∀ x ∈ rest, x.id = r.id → x.score ≤ r.score) := by
  intro rest
  induction rest with
  | nil => intro acc _ r h; left; simpa [dedupLoop] using h
  | cons c cs ih =>
    intro acc hs r h
    rw [List.pairwise_cons] at hs
    obtain ⟨hc, hcs⟩ := hs
    unfold dedupLoop at h
    by_cases hdup : acc.any (fun r => r.id == c.id)
    · rw [if_pos hdup] at h
      rw [List.any_eq_true] at hdup
      obtain ⟨m, hm, hmid⟩ := hdup
      rw [beq_iff_eq] at hmid
      by_cases hbreak : k ≤ acc.length
      · rw [if_pos hbreak] at h
        exact Or.inl h
      · rw [if_neg hbreak] at h
        rcases ih acc hcs r h with h2 | ⟨h2a, h2b, h2c⟩
        · exact Or.inl h2
        · right
          refine ⟨List.mem_cons_of_mem c h2a, h2b, ?_⟩
          intro x hx hxid
          rcases List.mem_cons.mp hx with rfl | hx2
          · exfalso
            apply h2b
            rw [← hxid, ← hmid]
            exact List.mem_map.mpr ⟨m, hm, rfl⟩
          · exact h2c x hx2 hxid
    · rw [if_neg hdup] at h
      have hcid : c.id ∉ acc.map Content.id := by
        intro hmem
        obtain ⟨m, hm, hmid⟩ := List.mem_map.mp hmem
        rw [List.any_eq_true] at hdup
        exact hdup ⟨m, hm, by simp [hmid]⟩
      have hcright : c ∈ c :: cs ∧ c.id ∉ acc.map Content.id ∧
          ∀ x ∈ c :: cs, x.id = c.id → x.score ≤ c.score := by
        refine ⟨List.mem_cons_self c cs, hcid, ?_⟩
        intro x hx _
        rcases List.mem_cons.mp hx with rfl | hx2
        · exact le_refl _
        · exact hc x hx2
      by_cases hbreak : k ≤ (acc ++ [c]).length
      · rw [if_pos hbreak] at h
        rcases List.mem_append.mp h with h2 | h2
        · exact Or.inl h2
        · rcases List.mem_singleton.mp h2 with rfl
          exact Or.inr hcright
      · rw [if_neg hbreak] at h
        rcases ih _ hcs r h with h2 | ⟨h2a, h2b, h2c⟩
        · rcases List.mem_append.mp h2 with h3 | h3
          · exact Or.inl h3
          · rcases List.mem_singleton.mp h3 with rfl
            exact Or.inr hcright
        · right
          simp only [List.map_append, List.map_cons, List.map_nil,
            List.mem_append, List.mem_singleton] at h2b
          push_neg at h2b
          obtain ⟨h2b1, h2b2⟩ := h2b
          refine ⟨List.mem_cons_of_mem c h2a, h2b1, ?_⟩
          intro x hx hxid
          rcases List.mem_cons.mp hx with rfl | hx2
          · exact absurd hxid.symm h2b2
          · exact h2c x hx2 hxid

end TopK

namespace Astra

theorem chunksFuel_flatten {β : Type} (n : Nat) (hn : 1 ≤ n) :
    ∀ fuel : Nat, ∀ l : List β, l.length ≤ fuel →
    (chunksFuel n fuel l).flatten = l := by
  intro fuel
  induction fuel with
  | zero =>
    intro l hl
    have : l = [] := List.length_eq_zero.mp (by omega)
    subst this
    rfl
  | succ fuel ih =>
    intro l hl
    cases l with
    | nil => rfl
    | cons x xs =>
      show ((x :: xs).take n :: chunksFuel n fuel ((x :: xs).drop n)).flatten
        = x :: xs
      rw [List.flatten_cons, ih ((x :: xs).drop n)
        (by simp only [List.length_drop]; simp at hl ⊢; omega)]
      exact List.take_append_drop n (x :: xs)

theorem chunksFuel_sizes {β : Type} (n : Nat) (hn : 1 ≤ n) :
    ∀ fuel : Nat, ∀ l : List β, l.length ≤ fuel →
    ∀ b ∈ chunksFuel n fuel l, b.length ≤ n ∧ b ≠ [] := by
  intro fuel
  induction fuel with
  | zero =>
    intro l hl b hb
    have : l = [] := List.length_eq_zero.mp (by omega)
    subst this
    exact absurd hb (by simp [chunksFuel])
  | succ fuel ih =>
    intro l hl b hb
    cases l with
    | nil => exact absurd hb (by simp [chunksFuel])
    | cons x xs =>
      rcases List.mem_cons.mp hb with rfl | hb2
      · constructor
        · simp only [List.length_take]
          omega
        · intro he
          have := congrArg List.length he
          simp only [List.length_take, List.length_cons,
            List.length_nil] at this
          omega
      · exact ih ((x :: xs).drop n)
          (by simp only [List.length_drop]; simp at hl ⊢; omega) b hb2

/-- One chunk suffices for a nonempty list of at most `n` elements. -/
theorem chunks_single {β : Type} (n : Nat) (l : List β) (hne : l ≠ [])
    (hlen : l.length ≤ n) : chunks n l = [l] := by
  unfold chunks
  cases l with
  | nil => exact absurd rfl hne
  | cons x xs =>
    show (x :: xs).take n :: chunksFuel n xs.length ((x :: xs).drop n)
      = [x :: xs]
    have htake : (x :: xs).take n = x :: xs :=
      List.take_of_length_le hlen
    have hdrop : (x :: xs).drop n = [] := by
      apply List.drop_eq_nil_of_le
      exact hlen
    rw [htake, hdrop]
    cases xs <;> rfl

theorem addElem_mem {β : Type} [DecidableEq β] (l : List β) (v : β) :
    v ∈ addElem l v := by
  unfold addElem
  by_cases h : v ∈ l
  · rw [if_pos h]; exact h
  · rw [if_neg h]; simp

theorem addElem_mono {β : Type} [DecidableEq β] (l : List β) (v x : β)
    (h : x ∈ l) : x ∈ addElem l v := by
  unfold addElem
  by_cases h2 : v ∈ l
  · rw [if_pos h2]; exact h
  · rw [if_neg h2]; simp [h]

theorem addSingle_mem (sm : List (String × List Int)) (k : String)
    (v : Int) : ∃ vs, (k, vs) ∈ addSingle sm k v ∧ v ∈ vs := by
  induction sm with
  | nil => exact ⟨[v], by simp [addSingle]⟩
  | cons p rest ih =>
    obtain ⟨k2, vs⟩ := p
    unfold addSingle
    by_cases h : k2 = k
    · subst h
      exact ⟨addElem vs v, by simp, addElem_mem vs v⟩
    · rw [if_neg h]
      obtain ⟨vs2, hmem, hv⟩ := ih
      exact ⟨vs2, List.mem_cons_of_mem _ hmem, hv⟩

theorem addSingle_mono (sm : List (String × List Int)) (k k2 : String)
    (v x : Int) (vs : List Int) (h : (k2, vs) ∈ sm) (hx : x ∈ vs) :
    ∃ vs2, (k2, vs2) ∈ addSingle sm k v ∧ x ∈ vs2 := by
  induction sm with
  | nil => exact absurd h (by simp)
  | cons p rest ih =>
    obtain ⟨k3, vs3⟩ := p
    unfold addSingle
    by_cases hk : k3 = k
    · rw [if_pos hk]
      rcases List.mem_cons.mp h with heq | h2
      · obtain ⟨he1, he2⟩ := Prod.mk.injEq .. |>.mp heq
        subst he1
        subst he2
        exact ⟨addElem vs v, List.mem_cons_self _ _, addElem_mono vs v x hx⟩
      · exact ⟨vs, List.mem_cons_of_mem _ h2, hx⟩
    · rw [if_neg hk]
      rcases List.mem_cons.mp h with heq | h2
      · obtain ⟨he1, he2⟩ := Prod.mk.injEq .. |>.mp heq
        subst he1
        subst he2
        exact ⟨vs, List.mem_cons_self _ _, hx⟩
      · obtain ⟨vs2, hmem, hxx⟩ := ih h2
        exact ⟨vs2, List.mem_cons_of_mem _ hmem, hxx⟩

/-- Reduce `extractStep` on a metadata edge that is not single-field. -/
theorem extractStep_metadata_not_single (st : ExtractState)
    (fields : List (String × Int)) (h : fields.length ≠ 1) :
    extractStep st (.metadata fields) =
      { st with multi_metadata := st.multi_metadata ++ [fields] } := by
  match fields with
  | [] => rfl
  | [(k, v)] => exact absurd rfl h
  | p :: q :: rest => rfl

theorem extractStep_single_mono (st : ExtractState) (e : Edge)
    (k : String) (v : Int)
    (h : ∃ vs, (k, vs) ∈ st.single_metadata ∧ v ∈ vs) :
    ∃ vs, (k, vs) ∈ (extractStep st e).single_metadata ∧ v ∈ vs := by
  obtain ⟨vs, hmem, hv⟩ := h
  cases e with
  | idEdge i => exact ⟨vs, hmem, hv⟩
  | metadata fields =>
    match fields with
    | [] => exact ⟨vs, hmem, hv⟩
    | [(k2, v2)] =>
      show ∃ vs2, (k, vs2) ∈ addSingle st.single_metadata k2 v2 ∧ v ∈ vs2
      exact addSingle_mono st.single_metadata k2 k v2 v vs hmem hv
    | p :: q :: rest => exact ⟨vs, hmem, hv⟩

theorem extractStep_ids_mono (st : ExtractState) (e : Edge) (i : String)
    (h : i ∈ st.ids) : i ∈ (extractStep st e).ids := by
  cases e with
  | idEdge j => exact addElem_mono st.ids j i h
  | metadata fields =>
    match fields with
    | [] => exact h
    | [(k2, v2)] => exact h
    | p :: q :: rest => exact h

theorem extractStep_multi_mono (st : ExtractState) (e : Edge)
    (fields : List (String × Int)) (h : fields ∈ st.multi_metadata) :
    fields ∈ (extractStep st e).multi_metadata := by
  cases e with
  | idEdge j => exact h
  | metadata fields2 =>
    match fields2 with
    | [] => simp only [extractStep]; exact List.mem_append_left _ h
    | [(k2, v2)] => exact h
    | p :: q :: rest =>
      simp only [extractStep]
      exact List.mem_append_left _ h

theorem foldl_extract_single_mono (edges : List Edge) (st : ExtractState)
    (k : String) (v : Int)
    (h : ∃ vs, (k, vs) ∈ st.single_metadata ∧ v ∈ vs) :
    ∃ vs, (k, vs) ∈ (edges.foldl extractStep st).single_metadata ∧
      v ∈ vs := by
  induction edges generalizing st with
  | nil => exact h
  | cons e rest ih =>
    exact ih (extractStep st e) (extractStep_single_mono st e k v h)

theorem foldl_extract_ids_mono (edges : List Edge) (st : ExtractState)
    (i : String) (h : i ∈ st.ids) :
    i ∈ (edges.foldl extractStep st).ids := by
  induction edges generalizing st with
  | nil => exact h
  | cons e rest ih => exact ih (extractStep st e) (extractStep_ids_mono st e i h)

theorem foldl_extract_multi_mono (edges : List Edge) (st : ExtractState)
    (fields : List (String × Int)) (h : fields ∈ st.multi_metadata) :
    fields ∈ (edges.foldl extractStep st).multi_metadata := by
  induction edges generalizing st with
  | nil => exact h
  | cons e rest ih =>
    exact ih (extractStep st e) (extractStep_multi_mono st e fields h)

theorem foldl_extract_single (edges : List Edge) (st : ExtractState)
    (k : String) (v : Int) (h : Edge.metadata [(k, v)] ∈ edges) :
    ∃ vs, (k, vs) ∈ (edges.foldl extractStep st).single_metadata ∧
      v ∈ vs := by
  induction edges generalizing st with
  | nil => exact absurd h (by simp)
  | cons e rest ih =>
    rcases List.mem_cons.mp h with heq | h2
    · subst heq
      rw [List.foldl_cons]
      apply foldl_extract_single_mono
      exact addSingle_mem st.single_metadata k v
    · rw [List.foldl_cons]
      exact ih (extractStep st e) h2

theorem foldl_extract_ids (edges : List Edge) (st : ExtractState)
    (i : String) (h : Edge.idEdge i ∈ edges) :
    i ∈ (edges.foldl extractStep st).ids := by
  induction edges generalizing st with
  | nil => exact absurd h (by simp)
  | cons e rest ih =>
    rcases List.mem_cons.mp h with heq | h2
    · subst heq
      rw [List.foldl_cons]
      apply foldl_extract_ids_mono
      exact addElem_mem st.ids i
    · rw [List.foldl_cons]
      exact ih (extractStep st e) h2

theorem foldl_extract_multi (edges : List Edge) (st : ExtractState)
    (fields : List (String × Int)) (h : Edge.metadata fields ∈ edges)
    (hlen : fields.length ≠ 1) :
    fields ∈ (edges.foldl extractStep st).multi_metadata := by
  induction edges generalizing st with
  | nil => exact absurd h (by simp)
  | cons e rest ih =>
    rcases List.mem_cons.mp h with heq | h2
    · subst heq
      rw [List.foldl_cons]
      apply foldl_extract_multi_mono
      rw [extractStep_metadata_not_single st fields hlen]
      simp
    · rw [List.foldl_cons]
      exact ih (extractStep st e) h2


theorem idQueries_le_100 (ids : List String) :
    ∀ q ∈ idQueries ids, idCount q ≤ 100 := by
  intro q hq
  unfold idQueries at hq
  obtain ⟨b, hb, hbq⟩ := List.mem_map.mp hq
  have hsz := chunksFuel_sizes 100 (by omega) ids.length ids (le_refl _) b hb
  match b, hbq with
  | [i], h => rw [← h]; simp [idCount]
  | [], h => exact absurd rfl hsz.2
  | x :: y :: rest, h =>
    rw [← h]
    simpa [idCount] using hsz.1

theorem idQueries_cover (ids : List String) (i : String) (h : i ∈ ids) :
    ∃ q ∈ idQueries ids, q = .idEq i ∨ ∃ l, q = .idIn l ∧ i ∈ l := by
  have hfl : (chunksFuel 100 ids.length ids).flatten = ids :=
    chunksFuel_flatten 100 (by omega) ids.length ids (le_refl _)
  rw [← hfl] at h
  obtain ⟨b, hb, hib⟩ := List.mem_flatten.mp h
  match b, hb, hib with
  | [], hb, hib => exact absurd hib (by simp)
  | [j], hb, hib =>
    refine ⟨AstraQuery.idEq j, List.mem_map.mpr ⟨[j], hb, rfl⟩, ?_⟩
    left
    rcases List.mem_singleton.mp hib with rfl
    rfl
  | x :: y :: rest, hb, hib =>
    exact ⟨AstraQuery.idIn (x :: y :: rest),
      List.mem_map.mpr ⟨x :: y :: rest, hb, rfl⟩, Or.inr ⟨_, rfl, hib⟩⟩

theorem queriesForField_single (k : String) (vs : List Int)
    (hne : vs ≠ []) (hlen : vs.length ≤ 100) :
    (queriesForField k vs).length = 1 := by
  unfold queriesForField
  rw [chunks_single 100 vs hne hlen]
  rfl

end Astra


/-
Claim theorems.
-/

/-- C1: a tracker built with `max_depth = d` never schedules a node of
depth `≥ d` and never schedules a node whose id was already visited
(scheduled ids stay pairwise distinct and every scheduled node's id is
recorded), `traverse` skips visited and depth-capped nodes and returns the
size of `to_traverse` after insertion, and `select_and_traverse` still
appends every passed node — regardless of its depth — to `selected`. -/
theorem nodeTracker_depth_cap_spec (k d : Nat) (ops : List TrackerOp) :
    (∀ n ∈ (runOps (NodeTracker.init k (some d)) ops).to_traverse,
        n.depth < d)
    ∧ ((runOps (NodeTracker.init k (some d)) ops).to_traverse.map
        Node.id).Nodup
    ∧ (∀ t : NodeTracker, ∀ n : Node, n.id ∈ t.visited_node_ids →
        t.traverseStep n = t)
    ∧ (∀ t : NodeTracker, ∀ n : Node, ∀ dd : Nat, t.max_depth = some dd →
        n.depth ≥ dd → t.traverseStep n = t)
    ∧ (∀ t : NodeTracker, ∀ ns : List Node,
        (t.traverse ns).2 = (t.traverse ns).1.to_traverse.length)
    ∧ (∀ t : NodeTracker, ∀ ns : List Node,
        ((t.select_and_traverse ns).1).selected = t.selected ++ ns) := by
  have hinv := runOps_inv _ ops (init_inv k (some d))
  have hmd : (runOps (NodeTracker.init k (some d)) ops).max_depth = some d := by
    rw [runOps_max_depth]
    rfl
  refine ⟨?_, hinv.2, ?_, ?_, fun t ns => rfl, select_and_traverse_selected⟩
  · intro n hn
    exact (hinv.1 n hn).1 d hmd
  · intro t n h
    unfold NodeTracker.traverseStep
    rw [if_pos h]
  · intro t n dd hmd2 hge
    unfold NodeTracker.traverseStep
    by_cases hv : n.id ∈ t.visited_node_ids
    · rw [if_pos hv]
    · rw [if_neg hv, if_pos (by simp [NodeTracker.depth_blocked, hmd2]; omega)]

/-- C1 witness: a concrete run scheduling a node of depth `0` under
`max_depth = 1`, and a concrete skip of a node at the cap. -/
theorem nodeTracker_depth_cap_witness :
    (⟨"a", 0⟩ : Node).depth < 1
    ∧ (NodeTracker.init 2 (some 1)).traverseStep ⟨"b", 5⟩ =
        NodeTracker.init 2 (some 1) :=
  ⟨(nodeTracker_depth_cap_spec 2 1
      [.traverse [⟨"a", 0⟩]]).1 ⟨"a", 0⟩ (by decide),
    (nodeTracker_depth_cap_spec 2 1 []).2.2.2.1
      (NodeTracker.init 2 (some 1)) ⟨"b", 5⟩ 1 rfl (by decide)⟩

/-- C4 (amended): the core `finalize_nodes` returns the prefix of at most
`select_k` selected nodes; the langchain `finalize_nodes` returns the list
unchanged (hence does not enforce at-most-k). -/
theorem finalize_nodes_spec (k : Nat) (selected : List Node) :
    finalize_nodes k selected = selected.take k
    ∧ (finalize_nodes k selected).length ≤ k
    ∧ (∃ rest, selected = finalize_nodes k selected ++ rest)
    ∧ lcFinalize_nodes selected = selected := by
  refine ⟨rfl, ?_,
    ⟨selected.drop k, (List.take_append_drop k selected).symm⟩, rfl⟩
  rw [finalize_nodes, List.length_take]
  exact min_le_left _ _

/-- C4 counterexample: the langchain `finalize_nodes` keeps all six nodes
even though the default `select_k` is 5, so `|result| ≤ select_k` fails
for it. -/
theorem finalize_nodes_cex :
    (lcFinalize_nodes [⟨"a", 0⟩, ⟨"b", 0⟩, ⟨"c", 0⟩, ⟨"d", 0⟩, ⟨"e", 0⟩,
      ⟨"f", 0⟩]).length = 6
    ∧ ¬ ((lcFinalize_nodes [⟨"a", 0⟩, ⟨"b", 0⟩, ⟨"c", 0⟩, ⟨"d", 0⟩,
      ⟨"e", 0⟩, ⟨"f", 0⟩]).length ≤ 5) := by
  decide

/-- C6 (amended): the visited-id set contains the id of every node ever
scheduled for traversal, but `select` does not touch the visited set, so
ids of nodes that were only selected are not recorded. -/
theorem visited_contains_scheduled (k : Nat) (md : Option Nat)
    (ops : List TrackerOp) :
    (∀ n ∈ (runOps (NodeTracker.init k md) ops).to_traverse,
        n.id ∈ (runOps (NodeTracker.init k md) ops).visited_node_ids)
    ∧ (∀ t : NodeTracker, ∀ ns : List Node,
        (t.select ns).visited_node_ids = t.visited_node_ids) := by
  refine ⟨?_, fun t ns => rfl⟩
  intro n hn
  exact ((runOps_inv _ ops (init_inv k md)).1 n hn).2

/-- C6 witness: a concretely scheduled node's id is concretely visited. -/
theorem visited_contains_scheduled_witness :
    "a" ∈ (runOps (NodeTracker.init 2 none)
      [.traverse [⟨"a", 0⟩]]).visited_node_ids
    ∧ ((NodeTracker.init 2 none).select
        [⟨"b", 0⟩]).visited_node_ids =
      (NodeTracker.init 2 none).visited_node_ids :=
  ⟨(visited_contains_scheduled 2 none [.traverse [⟨"a", 0⟩]]).1
      ⟨"a", 0⟩ (by decide),
    (visited_contains_scheduled 2 none []).2
      (NodeTracker.init 2 none) [⟨"b", 0⟩]⟩

/-- C6 counterexample: after `select`, the selected node's id is not in
the visited set, refuting "`visited_ids` — nodes ever scheduled or
selected". -/
theorem select_not_visited_cex :
    ((NodeTracker.init 5 none).select [⟨"a", 0⟩]).selected = [⟨"a", 0⟩]
    ∧ ¬ ("a" ∈ ((NodeTracker.init 5 none).select
        [⟨"a", 0⟩]).visited_node_ids) := by
  decide

/-- C9: both entry points mark the traversal used on first invocation
(whatever the body outcome), and any second invocation of either entry
point fails with the reuse error. -/
theorem traversal_single_use (e1 e2 : TraversalGuard.Entry)
    (b1 b2 : Except String (List Node)) :
    ((TraversalGuard.callEntry e1 ⟨false⟩ b1).1).used = true
    ∧ (TraversalGuard.callEntry e2
        ((TraversalGuard.callEntry e1 ⟨false⟩ b1).1) b2).2 =
      Except.error "Traversals cannot be re-used." := by
  cases e1 <;> cases e2 <;>
    simp [TraversalGuard.callEntry, TraversalGuard.traverse,
      TraversalGuard.atraverse, TraversalGuard.check_first_use]

/-- C8: for the list-searching in-memory store, `_equals_or_contains`
returns true exactly when the metadata holds the key with an equal value
or with a collection containing the value; a metadata map without the key
never matches. -/
theorem equals_or_contains_spec (key : String) (value : MValue)
    (md : List (String × MValue)) :
    (InMemory.equals_or_contains true key value md = true ↔
      ∃ a, InMemory.lookupAssoc md key = some a ∧
        (a = value ∨
          ∃ vs, a = MValue.coll vs ∧ ∃ s ∈ vs, value = MValue.scalar s))
    ∧ (InMemory.lookupAssoc md key = none →
        InMemory.equals_or_contains true key value md = false) := by
  constructor
  · unfold InMemory.equals_or_contains
    rcases hl : InMemory.lookupAssoc md key with - | a
    · simp
    · simp only [Option.some.injEq]
      cases a with
      | scalar v =>
        simp only [InMemory.isCollection, InMemory.containsValue,
          Bool.true_and, Bool.and_false, Bool.false_and]
        constructor
        · intro h
          by_cases he : (MValue.scalar v == value) = true
          · exact ⟨MValue.scalar v, rfl, Or.inl (beq_iff_eq.mp he)⟩
          · rw [if_neg he] at h
            simp at h
        · rintro ⟨a2, ha2, hcase⟩
          subst ha2
          rcases hcase with hcase | ⟨vs, hvs, -⟩
          · rw [if_pos (beq_iff_eq.mpr hcase)]
          · exact absurd hvs (by simp)
      | coll vs =>
        simp only [InMemory.isCollection, InMemory.containsValue,
          Bool.true_and, Bool.and_true]
        constructor
        · intro h
          by_cases he : (MValue.coll vs == value) = true
          · exact ⟨MValue.coll vs, rfl, Or.inl (beq_iff_eq.mp he)⟩
          · rw [if_neg he] at h
            refine ⟨MValue.coll vs, rfl, Or.inr ⟨vs, rfl, ?_⟩⟩
            by_cases hc : vs.any (fun s => MValue.scalar s == value) = true
            · obtain ⟨s, hs, hsv⟩ := List.any_eq_true.mp hc
              exact ⟨s, hs, (beq_iff_eq.mp hsv).symm⟩
            · rw [if_neg (by simpa using hc)] at h
              simp at h
        · rintro ⟨a2, ha2, hcase⟩
          subst ha2
          rcases hcase with hcase | ⟨vs2, hvs2, s, hs, hsv⟩
          · rw [if_pos (beq_iff_eq.mpr hcase)]
          · have hvseq : vs2 = vs := by
              injection hvs2.symm
            subst hvseq
            by_cases he : (MValue.coll vs2 == value) = true
            · rw [if_pos he]
            · rw [if_neg he, if_pos]
              simp only [List.any_eq_true]
              exact ⟨s, hs, beq_iff_eq.mpr hsv.symm⟩
  · intro h
    unfold InMemory.equals_or_contains
    rw [h]

/-- C8 witness: a metadata map without the key concretely never matches. -/
theorem equals_or_contains_witness :
    InMemory.equals_or_contains true "k" (MValue.scalar (.i 1))
      [("other", MValue.scalar (.i 1))] = false :=
  (equals_or_contains_spec "k" (MValue.scalar (.i 1))
    [("other", MValue.scalar (.i 1))]).2 (by decide)

/-- C2 (amended): `Scored.iteration` first pushes all newcomers onto the
heap (as a multiset) and then pops exactly
`min(effective limit, heap size)` nodes, passing each to
`select_and_traverse` (so fewer than the limit only when the heap empties
first); the effective limit is `min(num_remaining, per_iteration_limit)`
for a nonzero limit, and `num_remaining` when the limit is unset or zero
(python truthiness treats `0` as unset). -/
theorem scored_iteration_spec (scorer : Node → Int) (pil : Option Nat)
    (heap : List SNode) (nodes : List Node) (tracker : NodeTracker) :
    (Scored.pushAll scorer heap nodes).Perm
      (nodes.map (fun n => ⟨scorer n, n⟩) ++ heap)
    ∧ ((Scored.iteration scorer pil heap nodes tracker).2).selected.length =
        tracker.selected.length +
          min (Scored.effLimit pil tracker.num_remaining)
            (Scored.pushAll scorer heap nodes).length
    ∧ (∀ p : Nat, p ≠ 0 →
        Scored.effLimit (some p) tracker.num_remaining =
          min tracker.num_remaining p)
    ∧ Scored.effLimit none tracker.num_remaining = tracker.num_remaining
    ∧ Scored.effLimit (some 0) tracker.num_remaining =
        tracker.num_remaining := by
  refine ⟨Scored.pushAll_perm scorer heap nodes, ?_, ?_, rfl, ?_⟩
  · exact Scored.popLoop_selected_length _ _ _
  · intro p hp
    show (if p ≠ 0 ∧ p < tracker.num_remaining then p
      else tracker.num_remaining) = _
    by_cases h : p < tracker.num_remaining
    · rw [if_pos ⟨hp, h⟩]
      omega
    · rw [if_neg (fun hc => h hc.2)]
      omega
  · rfl

/-- C2 witness: the effective limit concretely equals
`min(num_remaining, per_iteration_limit)` for a nonzero limit. -/
theorem scored_iteration_witness :
    Scored.effLimit (some 2) (NodeTracker.init 7 none).num_remaining =
      min (NodeTracker.init 7 none).num_remaining 2 :=
  (scored_iteration_spec (fun _ => 0) (some 2) [] []
    (NodeTracker.init 7 none)).2.2.1 2 (by decide)

/-- C2 counterexample: with `per_iteration_limit = 0` set, the claim's
`min(num_remaining, per_iteration_limit) = 0` predicts no pops, but the
code treats the falsy `0` as unset and pops one node. -/
theorem scored_iteration_cex :
    ((Scored.iteration (fun _ => 0) (some 0) [] [⟨"a", 0⟩]
        (NodeTracker.init 1 none)).2).selected.length = 1
    ∧ min (NodeTracker.init 1 none).num_remaining 0 = 0 := by
  constructor
  · have h := Scored.popLoop_selected_length
      (Scored.effLimit (some 0) (NodeTracker.init 1 none).num_remaining)
      (Scored.pushAll (fun _ => 0) [] [⟨"a", 0⟩]) (NodeTracker.init 1 none)
    have hlen : (Scored.pushAll (fun _ => (0 : Int)) [] [⟨"a", 0⟩]).length
        = 1 := by
      have hp := Scored.pushAll_perm (fun _ => (0 : Int)) [] [⟨"a", 0⟩]
      simpa using hp.length_eq
    rw [hlen] at h
    simpa using h
  · decide

/-- C3 (amended): after any sequence of pushes and pops the `_ScoredNode`
heap satisfies the max-heap invariant and every successful pop returns a
stored node of maximal score; equal-score ties, however, follow heap
order rather than insertion order. -/
theorem scored_heap_pop_max (ops : List HeapOp) (r : SNode)
    (rest : List SNode)
    (hpop : Heapq.heappop SNode.score (runHeapOps ops) = some (r, rest)) :
    Heapq.IsHeap SNode.score (runHeapOps ops)
    ∧ r ∈ runHeapOps ops
    ∧ ∀ x ∈ runHeapOps ops, x.score ≤ r.score := by
  have hh := runHeapOps_isHeap ops
  have hperm := Heapq.heappop_perm SNode.score _ r rest hpop
  exact ⟨hh, hperm.symm.subset (List.mem_cons_self _ _),
    Heapq.heappop_max SNode.score _ r rest hh hpop⟩

/-- C3 witness: after pushing scores 1 and 2, the concrete pop returns the
score-2 node, which dominates the stored score-1 node. -/
theorem scored_heap_pop_max_witness :
    (⟨1, ⟨"a", 0⟩⟩ : SNode).score ≤ (⟨2, ⟨"b", 0⟩⟩ : SNode).score := by
  have hr : runHeapOps [.push ⟨1, ⟨"a", 0⟩⟩, .push ⟨2, ⟨"b", 0⟩⟩]
      = [⟨2, ⟨"b", 0⟩⟩, ⟨1, ⟨"a", 0⟩⟩] := by
    have h0 : runHeapOps [.push ⟨1, ⟨"a", 0⟩⟩, .push ⟨2, ⟨"b", 0⟩⟩]
        = Heapq.heappush SNode.score
            (Heapq.heappush SNode.score [] ⟨1, ⟨"a", 0⟩⟩) ⟨2, ⟨"b", 0⟩⟩ := rfl
    rw [h0]
    simp [Heapq.heappush, Heapq.siftdownAux, Heapq.hlt]
  exact (scored_heap_pop_max [.push ⟨1, ⟨"a", 0⟩⟩, .push ⟨2, ⟨"b", 0⟩⟩]
      ⟨2, ⟨"b", 0⟩⟩ [⟨1, ⟨"a", 0⟩⟩]
      (by rw [hr]; simp [Heapq.heappop, Heapq.siftupAux,
        Heapq.siftdownAux, Heapq.hlt])).2.2
    ⟨1, ⟨"a", 0⟩⟩ (by rw [hr]; simp)

/-- C3 counterexample: four pushes of equal score `0` (ids a, b, c, d in
that order) are popped as a, then c — not the earliest-pushed b — so ties
are not broken by insertion order. -/
theorem scored_heap_stability_cex :
    Heapq.drain SNode.score (runHeapOps
      [.push ⟨0, ⟨"a", 0⟩⟩, .push ⟨0, ⟨"b", 0⟩⟩, .push ⟨0, ⟨"c", 0⟩⟩,
        .push ⟨0, ⟨"d", 0⟩⟩]) 2
      = [⟨0, ⟨"a", 0⟩⟩, ⟨0, ⟨"c", 0⟩⟩]
    ∧ (⟨0, ⟨"c", 0⟩⟩ : SNode) ≠ ⟨0, ⟨"b", 0⟩⟩ := by
  constructor
  · have hr : runHeapOps [.push ⟨0, ⟨"a", 0⟩⟩, .push ⟨0, ⟨"b", 0⟩⟩,
        .push ⟨0, ⟨"c", 0⟩⟩, .push ⟨0, ⟨"d", 0⟩⟩]
        = [⟨0, ⟨"a", 0⟩⟩, ⟨0, ⟨"b", 0⟩⟩, ⟨0, ⟨"c", 0⟩⟩, ⟨0, ⟨"d", 0⟩⟩] := by
      have h0 : runHeapOps [.push ⟨0, ⟨"a", 0⟩⟩, .push ⟨0, ⟨"b", 0⟩⟩,
          .push ⟨0, ⟨"c", 0⟩⟩, .push ⟨0, ⟨"d", 0⟩⟩]
          = Heapq.heappush SNode.score (Heapq.heappush SNode.score
              (Heapq.heappush SNode.score (Heapq.heappush SNode.score []
                ⟨0, ⟨"a", 0⟩⟩) ⟨0, ⟨"b", 0⟩⟩) ⟨0, ⟨"c", 0⟩⟩)
            ⟨0, ⟨"d", 0⟩⟩ := rfl
      rw [h0]
      simp [Heapq.heappush, Heapq.siftdownAux, Heapq.hlt]
    have hpop1 : Heapq.heappop SNode.score
        [⟨0, ⟨"a", 0⟩⟩, ⟨0, ⟨"b", 0⟩⟩, ⟨0, ⟨"c", 0⟩⟩, ⟨0, ⟨"d", 0⟩⟩]
        = some (⟨0, ⟨"a", 0⟩⟩,
            [⟨0, ⟨"c", 0⟩⟩, ⟨0, ⟨"b", 0⟩⟩, ⟨0, ⟨"d", 0⟩⟩]) := by
      simp [Heapq.heappop, Heapq.siftupAux, Heapq.siftdownAux, Heapq.hlt]
    have hpop2 : Heapq.heappop SNode.score
        [⟨0, ⟨"c", 0⟩⟩, ⟨0, ⟨"b", 0⟩⟩, ⟨0, ⟨"d", 0⟩⟩]
        = some (⟨0, ⟨"c", 0⟩⟩, [⟨0, ⟨"b", 0⟩⟩, ⟨0, ⟨"d", 0⟩⟩]) := by
      simp [Heapq.heappop, Heapq.siftupAux, Heapq.siftdownAux, Heapq.hlt]
    rw [hr]
    simp [Heapq.drain, hpop1, hpop2]
  · decide

/-- C5 (amended, `k ≥ 1`): `top_k` returns at most `k` contents with
pairwise-distinct ids ordered by non-increasing score, every result comes
from the input, and a result's score dominates every input content
sharing its id. -/
theorem top_k_spec (batches : List (List Content)) (k : Nat)
    (hk : 1 ≤ k) :
    (TopK.top_k batches k).length ≤ k
    ∧ ((TopK.top_k batches k).map Content.id).Nodup
    ∧ (TopK.top_k batches k).Pairwise (fun a b => b.score ≤ a.score)
    ∧ (∀ r ∈ TopK.top_k batches k, r ∈ batches.flatten)
    ∧ (∀ r ∈ TopK.top_k batches k, ∀ x ∈ batches.flatten,
        x.id = r.id → x.score ≤ r.score) := by
  refine ⟨TopK.dedupLoop_length k _ [] (by simp; omega),
    TopK.dedupLoop_nodup k _ [] (by simp),
    TopK.dedupLoop_sorted k _ [] (by simp) (TopK.sortDesc_pairwise _)
      (by simp),
    ?_, ?_⟩
  · intro r hr
    rcases TopK.dedupLoop_subset k _ [] r hr with h | h
    · exact absurd h (by simp)
    · exact (TopK.sortDesc_perm _).subset h
  · intro r hr x hx hid
    rcases TopK.dedupLoop_dominates k _ []
      (TopK.sortDesc_pairwise _) r hr with h | ⟨h1, h2, h3⟩
    · exact absurd h (by simp)
    · exact h3 x ((TopK.sortDesc_perm _).symm.subset hx) hid

/-- C5 witness: with `k = 1` and a duplicated id, one content is returned
and it dominates the same-id occurrence with the lower score. -/
theorem top_k_witness :
    (TopK.top_k [[⟨"a", 5⟩], [⟨"a", 3⟩]] 1).length ≤ 1
    ∧ (⟨"a", 3⟩ : Content).score ≤ (⟨"a", 5⟩ : Content).score :=
  ⟨(top_k_spec [[⟨"a", 5⟩], [⟨"a", 3⟩]] 1 (by decide)).1,
    (top_k_spec [[⟨"a", 5⟩], [⟨"a", 3⟩]] 1 (by decide)).2.2.2.2
      ⟨"a", 5⟩ (by decide) ⟨"a", 3⟩ (by decide) (by decide)⟩

/-- C5 counterexample: with `k = 0` and a nonempty scored batch, the break
check runs only after the first insertion, so one content is returned —
more than `k`. -/
theorem top_k_zero_cex :
    (TopK.top_k [[⟨"a", 1⟩]] 0).length = 1
    ∧ ¬ ((TopK.top_k [[⟨"a", 1⟩]] 0).length ≤ 0) := by
  decide

/-- C7 (amended): `_extract_queries` loses nothing — each single-field
metadata edge's value joins its field's group, each id edge's id joins the
id set, each multi-field edge joins the multi list — and `_queries`
renders every field group in chunks of at most 100 values with one query
per chunk (hence exactly one `IN` / equality query for a group of at most
100 values), while id queries never constrain more than 100 ids and cover
every collected id. -/
theorem astra_planner_spec (edges : List Edge) :
    (∀ k : String, ∀ v : Int, Edge.metadata [(k, v)] ∈ edges →
      ∃ vs, (k, vs) ∈ (Astra.extract_queries edges).single_metadata ∧
        v ∈ vs)
    ∧ (∀ i : String, Edge.idEdge i ∈ edges →
        i ∈ (Astra.extract_queries edges).ids)
    ∧ (∀ fields : List (String × Int), Edge.metadata fields ∈ edges →
        fields.length ≠ 1 →
        fields ∈ (Astra.extract_queries edges).multi_metadata)
    ∧ (∀ k : String, ∀ vs : List Int, vs ≠ [] → vs.length ≤ 100 →
        (Astra.queriesForField k vs).length = 1)
    ∧ (∀ ids : List String, ∀ q ∈ Astra.idQueries ids,
        Astra.idCount q ≤ 100)
    ∧ (∀ ids : List String, ∀ i ∈ ids, ∃ q ∈ Astra.idQueries ids,
        q = .idEq i ∨ ∃ l, q = .idIn l ∧ i ∈ l) :=
  ⟨fun k v h => Astra.foldl_extract_single edges _ k v h,
    fun i h => Astra.foldl_extract_ids edges _ i h,
    fun fields h hl => Astra.foldl_extract_multi edges _ fields h hl,
    fun k vs h1 h2 => Astra.queriesForField_single k vs h1 h2,
    fun ids q hq => Astra.idQueries_le_100 ids q hq,
    fun ids i h => Astra.idQueries_cover ids i h⟩

/-- C7 witness: a concrete single-field edge and id edge land in their
groups, and a one-value group yields exactly one query. -/
theorem astra_planner_witness :
    (∃ vs, ("a", vs) ∈ (Astra.extract_queries
        [.metadata [("a", 5)], .idEdge "x"]).single_metadata ∧
      (5 : Int) ∈ vs)
    ∧ "x" ∈ (Astra.extract_queries
        [.metadata [("a", 5)], .idEdge "x"]).ids
    ∧ (Astra.queriesForField "a" [5]).length = 1 :=
  ⟨(astra_planner_spec [.metadata [("a", 5)], .idEdge "x"]).1 "a" 5
      (by decide),
    (astra_planner_spec [.metadata [("a", 5)], .idEdge "x"]).2.1 "x"
      (by decide),
    (astra_planner_spec [.metadata [("a", 5)], .idEdge "x"]).2.2.2.1 "a"
      [5] (by decide) (by decide)⟩


/-- C7 counterexample: the single field group collects 101 values and
yields two queries, refuting "each group yields one query". -/
theorem astra_one_query_cex :
    ((Astra.extract_queries cexEdges).single_metadata.map
      (fun kv => (Astra.queriesForField kv.1 kv.2).length)) = [2] := by
  decide


/-- C10 (amended): with pairwise-distinct scores, draining both `Scored`
heaps yields the same multiset of nodes, but the core heap delivers them
in non-increasing score order and the langchain heap in non-decreasing
order — the langchain sequence is exactly the reverse of the core one. -/
theorem scored_refinement_spec (scorer : Node → Int) (nodes : List Node)
    (hnd : (nodes.map scorer).Nodup) :
    (Heapq.drain LcScored.lcKey (LcScored.discover_nodes scorer [] nodes)
        (LcScored.discover_nodes scorer [] nodes).length).map Prod.snd =
      ((Heapq.drain SNode.score (Scored.pushAll scorer [] nodes)
        (Scored.pushAll scorer [] nodes).length).map SNode.node).reverse := by
  have hcorePerm : (Heapq.drain SNode.score (Scored.pushAll scorer [] nodes)
      (Scored.pushAll scorer [] nodes).length).Perm
      (nodes.map (fun n => ⟨scorer n, n⟩)) := by
    apply (Heapq.drain_perm SNode.score _ _ (le_refl _)).trans
    simpa using Scored.pushAll_perm scorer [] nodes
  have hlcPerm : (Heapq.drain LcScored.lcKey
      (LcScored.discover_nodes scorer [] nodes)
      (LcScored.discover_nodes scorer [] nodes).length).Perm
      (nodes.map (fun n => (scorer n, n))) := by
    apply (Heapq.drain_perm LcScored.lcKey _ _ (le_refl _)).trans
    simpa using LcScored.discover_perm scorer [] nodes
  have hcoreSorted := Heapq.drain_sorted SNode.score
    (Scored.pushAll scorer [] nodes).length (Scored.pushAll scorer [] nodes)
    (Scored.pushAll_isHeap scorer [] nodes (Heapq.isHeap_nil _))
  have hlcSorted := Heapq.drain_sorted LcScored.lcKey
    (LcScored.discover_nodes scorer [] nodes).length
    (LcScored.discover_nodes scorer [] nodes)
    (LcScored.discover_isHeap scorer [] nodes (Heapq.isHeap_nil _))
  have hcorePairsPerm : ((Heapq.drain SNode.score
      (Scored.pushAll scorer [] nodes)
      (Scored.pushAll scorer [] nodes).length).reverse.map
        (fun s => (s.score, s.node))).Perm
      (nodes.map (fun n => (scorer n, n))) := by
    have h1 := (List.reverse_perm _).trans hcorePerm
    have h2 := h1.map (fun s : SNode => (s.score, s.node))
    simpa [List.map_map] using h2
  have hcoreAsc : ((Heapq.drain SNode.score (Scored.pushAll scorer [] nodes)
      (Scored.pushAll scorer [] nodes).length).reverse.map
        (fun s => (s.score, s.node))).Pairwise
      (fun a b => a.1 ≤ b.1) := by
    apply List.pairwise_map.mpr
    exact List.pairwise_reverse.mpr (hcoreSorted.imp (fun h => h))
  have hlcAsc : (Heapq.drain LcScored.lcKey
      (LcScored.discover_nodes scorer [] nodes)
      (LcScored.discover_nodes scorer [] nodes).length).Pairwise
      (fun a b => a.1 ≤ b.1) := by
    apply hlcSorted.imp
    intro a b h
    unfold LcScored.lcKey at h
    omega
  have hcoreKeys : (((Heapq.drain SNode.score
      (Scored.pushAll scorer [] nodes)
      (Scored.pushAll scorer [] nodes).length).reverse.map
        (fun s => (s.score, s.node))).map Prod.fst).Nodup := by
    apply (hcorePairsPerm.map Prod.fst).nodup_iff.mpr
    simpa [List.map_map] using hnd
  have hlcKeys : ((Heapq.drain LcScored.lcKey
      (LcScored.discover_nodes scorer [] nodes)
      (LcScored.discover_nodes scorer [] nodes).length).map
        Prod.fst).Nodup := by
    apply (hlcPerm.map Prod.fst).nodup_iff.mpr
    simpa [List.map_map] using hnd
  have hcoreStrict := pairwise_lt_of_pairwise_le Prod.fst _ hcoreAsc hcoreKeys
  have hlcStrict := pairwise_lt_of_pairwise_le Prod.fst _ hlcAsc hlcKeys
  have heq := eq_of_perm_of_pairwise_lt Prod.fst _ _
    (hlcPerm.trans hcorePairsPerm.symm) hlcStrict hcoreStrict
  rw [heq, ← List.map_reverse]
  simp [List.map_map]

/-- C10 witness: the amended statement at the concrete two-node,
distinct-score instance. -/
theorem scored_refinement_witness :
    (Heapq.drain LcScored.lcKey
        (LcScored.discover_nodes cexScorer [] [⟨"a", 0⟩, ⟨"b", 0⟩])
        (LcScored.discover_nodes cexScorer []
          [⟨"a", 0⟩, ⟨"b", 0⟩]).length).map Prod.snd =
      ((Heapq.drain SNode.score
        (Scored.pushAll cexScorer [] [⟨"a", 0⟩, ⟨"b", 0⟩])
        (Scored.pushAll cexScorer []
          [⟨"a", 0⟩, ⟨"b", 0⟩]).length).map SNode.node).reverse :=
  scored_refinement_spec cexScorer [⟨"a", 0⟩, ⟨"b", 0⟩] (by decide)

/-- C10 counterexample: with scores 1 (id a) and 2 (id b), the core
strategy selects b then a while the langchain strategy selects a then b —
different orders, so the two implementations are not equivalent. -/
theorem scored_refinement_cex :
    ((Scored.iteration cexScorer none [] [⟨"a", 0⟩, ⟨"b", 0⟩]
        (NodeTracker.init 5 none)).2).selected = [⟨"b", 0⟩, ⟨"a", 0⟩]
    ∧ (LcScored.select_nodes (LcScored.discover_nodes cexScorer []
        [⟨"a", 0⟩, ⟨"b", 0⟩]) 5 10).1 = [⟨"a", 0⟩, ⟨"b", 0⟩]
    ∧ ([⟨"b", 0⟩, ⟨"a", 0⟩] : List Node) ≠ [⟨"a", 0⟩, ⟨"b", 0⟩] := by
  refine ⟨?_, ?_, by decide⟩
  · have hpush : Scored.pushAll cexScorer [] [⟨"a", 0⟩, ⟨"b", 0⟩]
        = [⟨2, ⟨"b", 0⟩⟩, ⟨1, ⟨"a", 0⟩⟩] := by
      have h0 : Scored.pushAll cexScorer [] [⟨"a", 0⟩, ⟨"b", 0⟩]
          = Heapq.heappush SNode.score (Heapq.heappush SNode.score []
              ⟨cexScorer ⟨"a", 0⟩, ⟨"a", 0⟩⟩) ⟨cexScorer ⟨"b", 0⟩, ⟨"b", 0⟩⟩ :=
        rfl
      rw [h0]
      simp [Heapq.heappush, Heapq.siftdownAux, Heapq.hlt, cexScorer]
    have hpop1 : Heapq.heappop SNode.score [⟨2, ⟨"b", 0⟩⟩, ⟨1, ⟨"a", 0⟩⟩]
        = some (⟨2, ⟨"b", 0⟩⟩, [⟨1, ⟨"a", 0⟩⟩]) := by
      simp [Heapq.heappop, Heapq.siftupAux, Heapq.siftdownAux, Heapq.hlt]
    have hpop2 : Heapq.heappop SNode.score [⟨1, ⟨"a", 0⟩⟩]
        = some (⟨1, ⟨"a", 0⟩⟩, []) := by
      simp [Heapq.heappop]
    have hpop3 : Heapq.heappop SNode.score ([] : List SNode) = none := by
      simp [Heapq.heappop]
    show ((Scored.popLoop (Scored.pushAll cexScorer [] [⟨"a", 0⟩, ⟨"b", 0⟩])
        (NodeTracker.init 5 none)
        (Scored.effLimit none
          (NodeTracker.init 5 none).num_remaining)).2).selected = _
    rw [hpush]
    simp [Scored.popLoop, Scored.effLimit, hpop1, hpop2, hpop3,
      NodeTracker.num_remaining, NodeTracker.init,
      NodeTracker.select_and_traverse, NodeTracker.select,
      NodeTracker.traverse, NodeTracker.traverseStep,
      NodeTracker.depth_blocked]
  · have hdisc : LcScored.discover_nodes cexScorer [] [⟨"a", 0⟩, ⟨"b", 0⟩]
        = [(1, ⟨"a", 0⟩), (2, ⟨"b", 0⟩)] := by
      have h0 : LcScored.discover_nodes cexScorer [] [⟨"a", 0⟩, ⟨"b", 0⟩]
          = Heapq.heappush LcScored.lcKey (Heapq.heappush LcScored.lcKey []
              (cexScorer ⟨"a", 0⟩, ⟨"a", 0⟩)) (cexScorer ⟨"b", 0⟩, ⟨"b", 0⟩) :=
        rfl
      rw [h0]
      simp [Heapq.heappush, Heapq.siftdownAux, Heapq.hlt, LcScored.lcKey,
        cexScorer]
    have hpop1 : Heapq.heappop LcScored.lcKey [(1, ⟨"a", 0⟩), (2, ⟨"b", 0⟩)]
        = some ((1, ⟨"a", 0⟩), [(2, ⟨"b", 0⟩)]) := by
      simp [Heapq.heappop, Heapq.siftupAux, Heapq.siftdownAux, Heapq.hlt,
        LcScored.lcKey]
    have hpop2 : Heapq.heappop LcScored.lcKey [(2, ⟨"b", 0⟩)]
        = some ((2, ⟨"b", 0⟩), []) := by
      simp [Heapq.heappop]
    have hpop3 : Heapq.heappop LcScored.lcKey ([] : List (Int × Node))
        = none := by
      simp [Heapq.heappop]
    rw [hdisc]
    simp [LcScored.select_nodes, LcScored.selectLoop, hpop1, hpop2, hpop3]
